import Mathlib

/-!
Verification model of the upb code generator (`upbc`) fast-decode-table
builder and related emitter logic, together with a model of the
`upb_symtab` commit protocol.

The definitions in the `Upbc` namespace below are shallow embeddings of the
functions `FieldHotnessOrder`, `GetEncodedTag`, `GetTableSlot`,
`TryFillTableEntry`, `FastDecodeTable`, `WriteMessage` (its fast-table mask
and extension-mode parts), `Generator::Generate` (its parameter-handling
part), `GenerateScalarGetters` and `HasNonZeroDefault` from the generator
source.  Machine integers are modelled as `Nat`/`Int` with explicit
wrap-arounds where the C code performs conversions.
-/

namespace Upbc

/-- The `upb` mini-table field descriptor type (`mt_f->descriptortype`),
also used for the protobuf `FieldDescriptor::type()` values consumed by
`WireFormatLite::WireTypeForFieldType`. -/
inductive FieldType where
  | tDouble | tFloat | tInt64 | tUInt64 | tInt32 | tFixed64 | tFixed32
  | tBool | tString | tGroup | tMessage | tBytes | tUInt32 | tEnum
  | tSFixed32 | tSFixed64 | tSInt32 | tSInt64
deriving DecidableEq

/-- `upb_FieldMode_Get(mt_f)`: the low bits of the mini-table field mode. -/
inductive FieldMode where
  | map | array | scalar
deriving DecidableEq

/-- The attributes of a single field that the fast-table builder reads.
Each component mirrors one accessor used by the source: mini-table data
(`descriptortype`, `fieldMode`, `mtPacked`, `presence`, `mtOffset`,
`submsgIndex`, `submsgSize`) and descriptor data (`number`, `isRequired`,
`isRepeated`, `inOneof`, `cppTypeMessage`, `descPacked`, `fieldType`,
`sameFileSubmsg`).  `presence` is the mini-table `int16_t presence`
(positive: has-bit index; negative: bitwise complement of the oneof case
offset; zero: no presence).  `mtOffset` models a `uint16_t`. -/
structure FastField where
  number : Nat
  descriptortype : FieldType
  fieldMode : FieldMode
  mtPacked : Bool
  presence : Int
  mtOffset : Nat
  submsgIndex : Nat
  submsgSize : Nat
  isRequired : Bool
  isRepeated : Bool
  inOneof : Bool
  cppTypeMessage : Bool
  descPacked : Bool
  fieldType : FieldType
  sameFileSubmsg : Bool
deriving DecidableEq

/-- `WireFormatLite::WireTypeForFieldType`. -/
def wireTypeForFieldType : FieldType → Nat
  | .tDouble => 1
  | .tFloat => 5
  | .tInt64 => 0
  | .tUInt64 => 0
  | .tInt32 => 0
  | .tFixed64 => 1
  | .tFixed32 => 5
  | .tBool => 0
  | .tString => 2
  | .tGroup => 3
  | .tMessage => 2
  | .tBytes => 2
  | .tUInt32 => 0
  | .tEnum => 0
  | .tSFixed32 => 5
  | .tSFixed64 => 1
  | .tSInt32 => 0
  | .tSInt64 => 0

/-- `WireFormat::WireTypeForField`: packed repeated fields use the
length-delimited wire type, all others the type's own wire type. -/
def wireTypeForField (f : FastField) : Nat :=
  if f.descPacked then 2 else wireTypeForFieldType f.fieldType

/-- `WireFormatLite::MakeTag(number, wire_type) = (number << 3) | wire_type`. -/
def unencodedTag (f : FastField) : Nat :=
  f.number <<< 3 ||| wireTypeForField f

/-- Varint encoding loop of `CodedOutputStream::WriteVarint32ToArray`.
The fuel argument bounds the iteration count; ten iterations cover the
ten-byte buffer of the source (a 32-bit varint takes at most five). -/
def varintBytesAux : Nat → Nat → List Nat
  | 0, _ => []
  | fuel + 1, x =>
    if x < 0x80 then [x] else (x % 0x80 + 0x80) :: varintBytesAux fuel (x / 0x80)

def varintBytes (x : Nat) : List Nat := varintBytesAux 10 x

/-- Little-endian recombination of a byte list, as done by the `memcpy`
of the encoded tag bytes into a `uint64_t`. -/
def leCombine : List Nat → Nat
  | [] => 0
  | b :: bs => b + 256 * leCombine bs

/-- `GetEncodedTag`: varint-encode the unencoded tag into a zeroed
ten-byte buffer and reinterpret the first eight bytes little-endian. -/
def GetEncodedTag (f : FastField) : Nat :=
  leCombine ((varintBytes (unencodedTag f)).take 8)

/-- `GetTableSlot`: `none` models the C return value `-1` (tag does not
fit within a two-byte varint), otherwise `(tag & 0xf8) >> 3`. -/
def GetTableSlot (f : FastField) : Option Nat :=
  let tag := GetEncodedTag f
  if 0x7fff < tag then none else some ((tag &&& 0xf8) >>> 3)

/-- The `type` string of `TryFillTableEntry`'s first switch; `none` models
the `return false` arms (closed enums and the default arm). -/
def typeCode : FieldType → Option String
  | .tBool => some "b1"
  | .tEnum => none
  | .tInt32 => some "v4"
  | .tUInt32 => some "v4"
  | .tInt64 => some "v8"
  | .tUInt64 => some "v8"
  | .tFixed32 => some "f4"
  | .tSFixed32 => some "f4"
  | .tFloat => some "f4"
  | .tFixed64 => some "f8"
  | .tSFixed64 => some "f8"
  | .tDouble => some "f8"
  | .tSInt32 => some "z4"
  | .tSInt64 => some "z8"
  | .tString => some "s"
  | .tBytes => some "b"
  | .tMessage => some "m"
  | _ => none

/-- The `cardinality` string of `TryFillTableEntry`'s second switch;
`none` models the `return false` arm for map fields. -/
def cardinalityCode (f : FastField) : Option String :=
  match f.fieldMode with
  | .map => none
  | .array => some (if f.mtPacked then "p" else "r")
  | .scalar => some (if f.presence < 0 then "o" else "s")

/-- Conversion of the `int16_t presence` value to `uint64_t`. -/
def uint64OfInt (p : Int) : Nat := (p % (2 ^ 64 : Int)).toNat

/-- The value of a signed 32-bit `int` holding the low 32 bits of a
non-negative integer: the wrap-around the targeted compilers give the
`int` shift `field->number() << 24` when bit 31 becomes set. -/
def int32OfNat (x : Nat) : Int :=
  if x % 2 ^ 32 < 2 ^ 31 then (x % 2 ^ 32 : Nat) else (x % 2 ^ 32 : Nat) - 2 ^ 32

/-- `uint64_t case_offset = ~mt_f->presence;`: bitwise complement of the
presence value, converted to `uint64_t`. -/
def oneofCaseOffset (f : FastField) : Nat := ((-f.presence - 1) % (2 ^ 64 : Int)).toNat

/-- Outcome of `TryFillTableEntry`: a filled entry (dispatch-key string
plus packed 64-bit data word), a `return false` (field not representable
in the fast path), or a violated `assert` (debug-build abort). -/
inductive FillResult where
  | filled (key : String) (data : Nat)
  | notRepresentable
  | assertFail
deriving DecidableEq

/-- The tail of `TryFillTableEntry` after the presence handling: the
sub-message handling (`sub_index`, size bucket) and the construction of
the dispatch key via `absl::Substitute`.  Factored into a helper because
both presence branches of the source fall through to this code. -/
def finishEntry (f : FastField) (ty card : String) (expected_tag data : Nat) : FillResult :=
  if f.cppTypeMessage then
    if 255 < f.submsgIndex then .notRepresentable
    else
      let data := data ||| f.submsgIndex <<< 16
      let size : Nat := if f.sameFileSubmsg then f.submsgSize + 8 else 2 ^ 64 - 1
      let size_ceil : String :=
        if size ≤ 64 then "64"
        else if size ≤ 128 then "128"
        else if size ≤ 192 then "192"
        else if size ≤ 256 then "256"
        else "max"
      .filled ("upb_p" ++ card ++ ty ++ "_" ++ (if 0xff < expected_tag then "2" else "1")
          ++ "bt_max" ++ size_ceil ++ "b") data
  else
    .filled ("upb_p" ++ card ++ ty ++ "_" ++ (if 0xff < expected_tag then "2" else "1")
        ++ "bt") data

/-- `TryFillTableEntry`.  The `assert(field->number() < 256)` of the
oneof branch is modelled as the distinguished outcome `assertFail`.
`data |= field->number() << 24;` shifts a 32-bit `int`, whose result is
sign-extended on conversion to the `uint64_t` data word, so the oneof
field number passes through `int32OfNat` and `uint64OfInt`. -/
def TryFillTableEntry (f : FastField) : FillResult :=
  match typeCode f.descriptortype, cardinalityCode f with
  | some ty, some card =>
    let expected_tag := GetEncodedTag f
    let data := f.mtOffset <<< 48 ||| expected_tag
    if f.inOneof then
      let case_offset := oneofCaseOffset f
      if 0xffff < case_offset then .notRepresentable
      else if 256 ≤ f.number then .assertFail
      else
        finishEntry f ty card expected_tag
          (data ||| uint64OfInt (int32OfNat (f.number <<< 24)) ||| case_offset <<< 32)
    else
      if f.presence ≠ 0 then
        let hasbit_index := uint64OfInt f.presence
        if 31 < hasbit_index then .notRepresentable
        else finishEntry f ty card expected_tag (data ||| hasbit_index <<< 24)
      else
        finishEntry f ty card expected_tag (data ||| 63 <<< 24)
  | _, _ => .notRepresentable

/-- A fast-table entry: dispatch-key string and packed data word
(`typedef std::pair<std::string, uint64_t> TableEntry`). -/
def TableEntry := String × Nat
deriving instance DecidableEq for TableEntry

def genericName : String := "_upb_FastDecoder_DecodeGeneric"

/-- The default slot value used by `table.resize`. -/
def genericEntry : TableEntry := (genericName, 0)

/-- One step of the `while ((size_t)slot >= table.size())` doubling loop:
the resulting length.  The fuel `slot + 1` always suffices (see
`lt_growLen`). -/
def growLenAux : Nat → Nat → Nat → Nat
  | 0, n, _ => n
  | fuel + 1, n, slot => if slot < n then n else growLenAux fuel (max 1 (n * 2)) slot

def growLen (n slot : Nat) : Nat := growLenAux (slot + 1) n slot

/-- The doubling `resize` loop of `FastDecodeTable`, filling new slots
with the generic fallback entry. -/
def growTable (t : List TableEntry) (slot : Nat) : List TableEntry :=
  t ++ List.replicate (growLen t.length slot - t.length) genericEntry

/-- The body of the `FastDecodeTable` loop for one field, acting on the
table built so far.  `none` propagates an assertion failure (the process
would have aborted). -/
def fastStep (acc : Option (List TableEntry)) (f : FastField) : Option (List TableEntry) :=
  match acc with
  | none => none
  | some table =>
    match GetTableSlot f with
    | none => some table
    | some slot =>
      match TryFillTableEntry f with
      | .notRepresentable => some table
      | .assertFail => none
      | .filled key data =>
        let t := growTable table slot
        if (t.getD slot genericEntry).1 ≠ genericName then some t
        else some (t.set slot (key, data))

/-- `FieldHotnessOrder`'s comparator, as a total preorder: required
fields precede optional ones, ties are broken by ascending field number
(the source sorts by the pair `(!is_required, number)`). -/
def hotnessLE (a b : FastField) : Prop :=
  (if a.isRequired then 0 else 1) < (if b.isRequired then 0 else 1) ∨
    ((if a.isRequired then (0 : Nat) else 1) = (if b.isRequired then 0 else 1) ∧
      a.number ≤ b.number)

instance : DecidableRel hotnessLE := fun a b => by
  unfold hotnessLE; infer_instance

instance : IsTotal FastField hotnessLE where
  total a b := by
    unfold hotnessLE
    rcases Nat.lt_trichotomy (if a.isRequired then 0 else 1) (if b.isRequired then 0 else 1) with h | h | h
    · exact Or.inl (Or.inl h)
    · rcases Nat.le_total a.number b.number with h' | h'
      · exact Or.inl (Or.inr ⟨h, h'⟩)
      · exact Or.inr (Or.inr ⟨h.symm, h'⟩)
    · exact Or.inr (Or.inl h)

instance : IsTrans FastField hotnessLE where
  trans a b c hab hbc := by
    unfold hotnessLE at *
    rcases hab with h | ⟨h, h'⟩ <;> rcases hbc with g | ⟨g, g'⟩
    · exact Or.inl (Nat.lt_trans h g)
    · exact Or.inl (g ▸ h)
    · exact Or.inl (h ▸ g)
    · exact Or.inr ⟨h.trans g, Nat.le_trans h' g'⟩

/-- `FieldHotnessOrder`: the field list sorted by hotness.  `std::sort`
with a strict-weak-order comparator is modelled by insertion sort with
the corresponding total preorder. -/
def FieldHotnessOrder (fields : List FastField) : List FastField :=
  List.insertionSort hotnessLE fields

/-- `FastDecodeTable`: fold the per-field step over the fields in
hotness order, starting from the empty table.  `none` means an assertion
fired while building the table. -/
def FastDecodeTable (fields : List FastField) : Option (List TableEntry) :=
  (FieldHotnessOrder fields).foldl fastStep (some [])

/-- The slot and entry a field contributes when it is representable:
`some (slot, entry)` iff `GetTableSlot` succeeds and `TryFillTableEntry`
fills an entry. -/
def placeOf (f : FastField) : Option (Nat × TableEntry) :=
  match GetTableSlot f, TryFillTableEntry f with
  | some s, .filled key data => some (s, (key, data))
  | _, _ => none

/-- The entry the loop leaves in slot `s`: the entry of the first field
in the list that is representable and maps to `s`, or the generic
fallback entry if there is none. -/
def slotResult : List FastField → Nat → TableEntry
  | [], _ => genericEntry
  | f :: rest, s =>
    match placeOf f with
    | some (s', e) => if s' = s then e else slotResult rest s
    | none => slotResult rest s

/-- The fast-table mask computation of `WriteMessage`:
`uint8_t table_mask = -1;` (i.e. `0xff`), overwritten with
`(table.size() - 1) << 3` (narrowed to `uint8_t`) when the table has more
than one entry. -/
def maskOfTable (table : List TableEntry) : Nat :=
  if 1 < table.length then ((table.length - 1) <<< 3) % 256 else 255

/-- The mask `WriteMessage` emits into the mini-table literal: the table
is built only when fasttable generation is enabled, otherwise it stays
empty and the mask stays `0xff`.  `none` propagates a fast-table
assertion failure. -/
def writeMessageTableMask (fields : List FastField) (fasttable_enabled : Bool) : Option Nat :=
  if fasttable_enabled then (FastDecodeTable fields).map maskOfTable
  else some (maskOfTable [])

/-- The two descriptor attributes the extension-mode selection of
`WriteMessage` reads. -/
structure ExtRangeMsg where
  extensionRangeCount : Nat
  messageSetWireFormat : Bool
deriving DecidableEq

/-- The extension-mode string of `WriteMessage`: starts as
`kUpb_ExtMode_NonExtendable` and is overwritten when the message has
extension ranges. -/
def writeMessageExtMode (m : ExtRangeMsg) : String :=
  if m.extensionRangeCount ≠ 0 then
    if m.messageSetWireFormat then "kUpb_ExtMode_IsMessageSet"
    else "kUpb_ExtMode_Extendable"
  else "kUpb_ExtMode_NonExtendable"

/-- One `key[=value]` token of `protoc`'s
`ParseGeneratorParameter`: split at the first `=` (the whole token is
the key when there is none). -/
def parseParamPart (part : String) : String × String :=
  let cs := part.data
  (⟨cs.takeWhile (fun c => c ≠ '=')⟩, ⟨(cs.dropWhile (fun c => c ≠ '=')).drop 1⟩)

/-- Split a character list at every occurrence of `sep` (the splitting
behind both the comma-separated parameter grammar and dotted-name
scopes). -/
def splitCharAux (sep : Char) : List Char → List Char → List String
  | [], acc => [⟨acc.reverse⟩]
  | c :: rest, acc =>
    if c = sep then ⟨acc.reverse⟩ :: splitCharAux sep rest []
    else splitCharAux sep rest (c :: acc)

/-- `protoc`'s `ParseGeneratorParameter`: split the parameter text on
commas, skipping empty parts, and split each part into key and value. -/
def ParseGeneratorParameter (text : String) : List (String × String) :=
  ((splitCharAux ',' text.data []).filter (fun p => p ≠ "")).map parseParamPart

deriving instance DecidableEq for Except

/-- The parameter loop of `Generator::Generate`: `fasttable` sets the
flag, any other key aborts generation with a diagnostic naming it. -/
def generateParamLoop : List (String × String) → Bool → Except String Bool
  | [], fasttable_enabled => .ok fasttable_enabled
  | p :: rest, _ =>
    if p.1 = "fasttable" then generateParamLoop rest true
    else .error ("Unknown parameter: " ++ p.1)

/-- The parameter handling of `Generator::Generate`:
`fasttable_enabled` starts `false`; the result is the flag on success or
the `*error` diagnostic on failure. -/
def GenerateParams (parameter : String) : Except String Bool :=
  generateParamLoop (ParseGeneratorParameter parameter) false

/-- `FieldDescriptor::cpp_type()` classes. -/
inductive CppType where
  | cppMessage | cppString | cppBool | cppFloat | cppDouble
  | cppInt32 | cppUInt32 | cppInt64 | cppUInt64 | cppEnum
deriving DecidableEq

/-- Model of a C `float`/`double` default value as consumed by
`HasNonZeroDefault` and `FloatToCLiteral`/`DoubleToCLiteral`: a finite
value (modelled as a rational), an infinity, or NaN.  The source only
inspects such values through `== infinity` comparisons, `!= 0`
comparisons and decimal formatting. -/
inductive FloatVal where
  | finite (q : Rat)
  | inf
  | negInf
  | nanVal
deriving DecidableEq

/-- The IEEE test `value != 0` is false exactly for (positive or
negative) zero; infinities and NaN compare non-zero. -/
def floatValIsZero : FloatVal → Bool
  | .finite q => q == 0
  | _ => false

/-- The attributes of a singular scalar field read by
`GenerateScalarGetters` and the helpers it calls (`HasNonZeroDefault`,
`CTypeInternal`, `FieldDefault`). -/
structure ScalarField where
  cppType : CppType
  fieldOffset : Nat
  defaultString : String
  defaultInt32 : Int
  defaultInt64 : Int
  defaultUInt32 : Nat
  defaultUInt64 : Nat
  defaultFloat : FloatVal
  defaultDouble : FloatVal
  defaultBool : Bool
  defaultEnumNumber : Int
  subMsgName : String
  subMsgSameFile : Bool
deriving DecidableEq

/-- `HasNonZeroDefault`. -/
def HasNonZeroDefault (f : ScalarField) : Bool :=
  match f.cppType with
  | .cppMessage => false
  | .cppString => !f.defaultString.isEmpty
  | .cppInt32 => f.defaultInt32 != 0
  | .cppInt64 => f.defaultInt64 != 0
  | .cppUInt32 => f.defaultUInt32 != 0
  | .cppUInt64 => f.defaultUInt64 != 0
  | .cppFloat => !floatValIsZero f.defaultFloat
  | .cppDouble => !floatValIsZero f.defaultDouble
  | .cppBool => f.defaultBool != false
  | .cppEnum => f.defaultEnumNumber != 0

/-- `CTypeInternal`.  Only the message branch uses the `const`/`struct`
prefixes; the remaining branches return the bare type names, as in the
source. -/
def CTypeInternal (f : ScalarField) (is_const : Bool) : String :=
  match f.cppType with
  | .cppMessage =>
    (if is_const then "const " else "") ++
      (if !f.subMsgSameFile then "struct " else "") ++ f.subMsgName ++ "*"
  | .cppBool => "bool"
  | .cppFloat => "float"
  | .cppInt32 => "int32_t"
  | .cppEnum => "int32_t"
  | .cppUInt32 => "uint32_t"
  | .cppDouble => "double"
  | .cppInt64 => "int64_t"
  | .cppUInt64 => "uint64_t"
  | .cppString => "upb_StringView"

def CType (f : ScalarField) : String := CTypeInternal f false

def CTypeConst (f : ScalarField) : String := CTypeInternal f true

/-- Decimal rendering of a finite floating default.  The numeral
formatting of `absl::StrCat` is abstracted by the rational's `toString`;
only which branch is taken matters to the properties proved below. -/
def floatLit (q : Rat) : String := toString q

/-- `FloatToCLiteral`. -/
def FloatToCLiteral : FloatVal → String
  | .inf => "kUpb_FltInfinity"
  | .negInf => "-kUpb_FltInfinity"
  | .finite q => floatLit q
  | .nanVal => "nan"

/-- `DoubleToCLiteral`. -/
def DoubleToCLiteral : FloatVal → String
  | .inf => "kUpb_Infinity"
  | .negInf => "-kUpb_Infinity"
  | .finite q => floatLit q
  | .nanVal => "nan"

/-- `absl::CEscape` on one character: C escapes for the common control
characters, quote, and backslash; octal escapes for other non-printable
bytes; printable characters unchanged. -/
def cEscapeChar (c : Char) : String :=
  if c = '\n' then "\\n"
  else if c = '\r' then "\\r"
  else if c = '\t' then "\\t"
  else if c = '\"' then "\\\""
  else if c = Char.ofNat 39 then "\\" ++ String.singleton (Char.ofNat 39)
  else if c = '\\' then "\\\\"
  else if 0x20 ≤ c.toNat ∧ c.toNat < 0x7f then String.singleton c
  else
    let n := c.toNat % 256
    "\\" ++ toString (n / 64) ++ toString (n / 8 % 8) ++ toString (n % 8)

/-- `absl::CEscape`. -/
def cEscape (s : String) : String := String.join (s.data.map cEscapeChar)

/-- `FieldDefault`. -/
def FieldDefault (f : ScalarField) : String :=
  match f.cppType with
  | .cppMessage => "NULL"
  | .cppString => "upb_StringView_FromString(\"" ++ cEscape f.defaultString ++ "\")"
  | .cppInt32 => "_upb_Int32_FromI(" ++ toString f.defaultInt32 ++ ")"
  | .cppInt64 => "_upb_Int64_FromLL(" ++ toString f.defaultInt64 ++ "ll)"
  | .cppUInt32 => "_upb_UInt32_FromU(" ++ toString f.defaultUInt32 ++ "u)"
  | .cppUInt64 => "_upb_UInt64_FromULL(" ++ toString f.defaultUInt64 ++ "ull)"
  | .cppFloat => FloatToCLiteral f.defaultFloat
  | .cppDouble => DoubleToCLiteral f.defaultDouble
  | .cppBool => if f.defaultBool then "true" else "false"
  | .cppEnum => toString f.defaultEnumNumber

/-- The guarded getter template of `GenerateScalarGetters` (the branch
taken for a non-zero default): the hazzer decides between the stored
value at `$3` and the default `$4`. -/
def scalarGetterGuardedTmpl : String :=
  "\n  UPB_INLINE $0 $1_$2(const $1* msg) \x7b\n    return $1_has_$2(msg) ? *UPB_PTR_AT(msg, $3, $0) : $4;\n  \x7d\n"

/-- The plain getter template of `GenerateScalarGetters` (the branch
taken for a zero/empty default): an unconditional read at offset `$3`. -/
def scalarGetterPlainTmpl : String :=
  "\n  UPB_INLINE $0 $1_$2(const $1* msg) \x7b\n    return *UPB_PTR_AT(msg, $3, $0);\n  \x7d\n"

/-- `GenerateScalarGetters`, modelled as the `output(template, args...)`
call it makes: the template string and the substitution arguments. -/
def GenerateScalarGetters (f : ScalarField) (msg_name resolved_name : String) :
    String × List String :=
  if HasNonZeroDefault f then
    (scalarGetterGuardedTmpl,
      [CTypeConst f, msg_name, resolved_name, toString f.fieldOffset, FieldDefault f])
  else
    (scalarGetterPlainTmpl,
      [CTypeConst f, msg_name, resolved_name, toString f.fieldOffset])

/-- The specification-side reading of "non-zero/non-empty default",
written out per type class (message defaults are never non-zero; a bool
default is non-zero when true; a float default is non-zero unless it is
the finite value zero). -/
def nonZeroDefaultSpec (f : ScalarField) : Prop :=
  match f.cppType with
  | .cppMessage => False
  | .cppString => f.defaultString ≠ ""
  | .cppInt32 => f.defaultInt32 ≠ 0
  | .cppInt64 => f.defaultInt64 ≠ 0
  | .cppUInt32 => f.defaultUInt32 ≠ 0
  | .cppUInt64 => f.defaultUInt64 ≠ 0
  | .cppFloat => f.defaultFloat ≠ .finite 0
  | .cppDouble => f.defaultDouble ≠ .finite 0
  | .cppBool => f.defaultBool = true
  | .cppEnum => f.defaultEnumNumber ≠ 0

/-! ### Symbol-table commit

The implementation of `upb_symtab_commit` is not part of the sources at
hand (only its declaration and documentation are), so the commit
protocol is modelled from the specification. -/

/-- Def kinds relevant to link resolution (message vs enum). -/
inductive DefKind where
  | msg
  | enm
deriving DecidableEq

/-- An unresolved cross-def link: the type name to resolve and whether an
enum (rather than a message) is expected. -/
structure SpecLink where
  typeName : String
  expectEnum : Bool
deriving DecidableEq

/-- A def staged in a transaction: fully-qualified name, kind, and its
unresolved links. -/
structure SpecDef where
  fqname : String
  kind : DefKind
  links : List SpecLink
deriving DecidableEq

/-- A symbol table: fully-qualified name to def.  First match wins on
lookup, so committing prepends the new bindings. -/
structure Symtab where
  tab : List (String × SpecDef)
deriving DecidableEq

/-- A symbol-table transaction: the staged defs. -/
structure Symtabtxn where
  defs : List SpecDef
deriving DecidableEq

/-- Join name components with dots. -/
def joinDots : List String → String
  | [] => ""
  | [x] => x
  | x :: xs => x ++ "." ++ joinDots xs

/-- The enclosing scopes of a base name, longest first, down to the empty
scope: for `a.b.c` the list `[a.b.c, a.b, a, ""]`. -/
def scopesOf (base : String) : List String :=
  let comps := splitCharAux '.' base.data []
  ((List.range (comps.length + 1)).reverse).map (fun i => joinDots (comps.take i))

/-- Prefix a symbol with a scope. -/
def qualify (scope sym : String) : String :=
  if scope = "" then sym else scope ++ "." ++ sym

/-- Modelled from the spec: the descriptor-style resolution rule used by
the commit step.  A leading dot makes the symbol absolute; otherwise the
scopes of the base name are tried from the innermost outwards and the
first hit wins. -/
def resolveSym (find : String → Option SpecDef) (base sym : String) : Option SpecDef :=
  match sym.data with
  | '.' :: rest => find ⟨rest⟩
  | _ => (scopesOf base).findSome? (fun sc => find (qualify sc sym))

/-- Resolution outcome for a single link: `none` on success, otherwise a
diagnostic (unresolved name or wrong kind). -/
def resolveLinkErr (find : String → Option SpecDef) (base : String) (l : SpecLink) :
    Option String :=
  match resolveSym find base l.typeName with
  | none => some ("could not resolve " ++ l.typeName)
  | some d =>
    if (d.kind = DefKind.enm) = l.expectEnum then none
    else some ("wrong kind for " ++ l.typeName)

/-- First resolution failure among a def's links, if any. -/
def defErr (find : String → Option SpecDef) (d : SpecDef) : Option String :=
  d.links.findSome? (resolveLinkErr find d.fqname)

/-- The name-lookup environment the commit resolves against: the
transaction's own defs first, then the existing table. -/
def commitFind (s : Symtab) (t : Symtabtxn) : String → Option SpecDef :=
  fun n =>
    match t.defs.find? (fun d => d.fqname = n) with
    | some d => some d
    | none => s.tab.lookup n

/-- Modelled from the spec: `upb_symtab_commit`.  Adds the set of defs
contained in the transaction to the symtab, clearing the transaction; the
entire operation either succeeds or fails.  The result models the C
signature's effects: the returned boolean, the symtab state, the
transaction state, and the status message.  Resolution walks every link
of every staged def; the first failure aborts the commit, leaving the
table and the transaction untouched. -/
def upb_symtab_commit (s : Symtab) (t : Symtabtxn) :
    Bool × Symtab × Symtabtxn × Option String :=
  match t.defs.findSome? (defErr (commitFind s t)) with
  | some e => (false, s, t, some e)
  | none => (true, ⟨t.defs.map (fun d => (d.fqname, d)) ++ s.tab⟩, ⟨[]⟩, none)

/-! ### Concrete inputs used by the witness and counterexample theorems -/

/-- A required `int32` field with number 1, has-bit 1, offset 8:
`required int32 a = 1;`. -/
def exReqInt32 : FastField :=
  { number := 1, descriptortype := .tInt32, fieldMode := .scalar, mtPacked := false,
    presence := 1, mtOffset := 8, submsgIndex := 0, submsgSize := 0,
    isRequired := true, isRepeated := false, inOneof := false, cppTypeMessage := false,
    descPacked := false, fieldType := .tInt32, sameFileSubmsg := false }

/-- An optional `int32` field with number 17: its two-byte tag `0x0188`
maps to slot 17. -/
def exInt32Num17 : FastField :=
  { number := 17, descriptortype := .tInt32, fieldMode := .scalar, mtPacked := false,
    presence := 3, mtOffset := 10, submsgIndex := 0, submsgSize := 0,
    isRequired := false, isRepeated := false, inOneof := false, cppTypeMessage := false,
    descPacked := false, fieldType := .tInt32, sameFileSubmsg := false }

/-- An optional `int32` field with number 33: its two-byte tag `0x0288`
also maps to slot 17, colliding with field number 17. -/
def exCollidingInt32 : FastField :=
  { number := 33, descriptortype := .tInt32, fieldMode := .scalar, mtPacked := false,
    presence := 2, mtOffset := 12, submsgIndex := 0, submsgSize := 0,
    isRequired := false, isRepeated := false, inOneof := false, cppTypeMessage := false,
    descPacked := false, fieldType := .tInt32, sameFileSubmsg := false }

/-- A oneof member with field number 300: reaches the
`assert(field->number() < 256)` of the oneof branch. -/
def exOneofBigNumber : FastField :=
  { number := 300, descriptortype := .tInt32, fieldMode := .scalar, mtPacked := false,
    presence := -9, mtOffset := 16, submsgIndex := 0, submsgSize := 0,
    isRequired := false, isRepeated := false, inOneof := true, cppTypeMessage := false,
    descPacked := false, fieldType := .tInt32, sameFileSubmsg := false }

/-- A singular message field whose same-file sub-message mini-table has
size 260, so that `size + 8` exceeds every bucket. -/
def exBigSubMessage : FastField :=
  { number := 2, descriptortype := .tMessage, fieldMode := .scalar, mtPacked := false,
    presence := 0, mtOffset := 24, submsgIndex := 0, submsgSize := 260,
    isRequired := false, isRepeated := false, inOneof := false, cppTypeMessage := true,
    descPacked := false, fieldType := .tMessage, sameFileSubmsg := true }

/-- A singular message field with a small same-file sub-message
(mini-table size 40). -/
def exSmallSubMessage : FastField :=
  { number := 3, descriptortype := .tMessage, fieldMode := .scalar, mtPacked := false,
    presence := 0, mtOffset := 32, submsgIndex := 1, submsgSize := 40,
    isRequired := false, isRepeated := false, inOneof := false, cppTypeMessage := true,
    descPacked := false, fieldType := .tMessage, sameFileSubmsg := true }

/-- A oneof `int32` member with number 5 and oneof-case offset 12
(presence = -13). -/
def exOneofInt32 : FastField :=
  { number := 5, descriptortype := .tInt32, fieldMode := .scalar, mtPacked := false,
    presence := -13, mtOffset := 20, submsgIndex := 0, submsgSize := 0,
    isRequired := false, isRepeated := false, inOneof := true, cppTypeMessage := false,
    descPacked := false, fieldType := .tInt32, sameFileSubmsg := false }

/-- A oneof `int32` member with field number 200 and oneof-case offset
12 (presence = -13): `200 << 24` sets bit 31 of the `int` shift result,
which sign-extends into the upper half of the data word. -/
def exOneofNum200 : FastField :=
  { number := 200, descriptortype := .tInt32, fieldMode := .scalar, mtPacked := false,
    presence := -13, mtOffset := 20, submsgIndex := 0, submsgSize := 0,
    isRequired := false, isRepeated := false, inOneof := true, cppTypeMessage := false,
    descPacked := false, fieldType := .tInt32, sameFileSubmsg := false }

/-- An `int32` field with default 7: `optional int32 d = 1 [default = 7];`. -/
def exNonZeroDefaultField : ScalarField :=
  { cppType := .cppInt32, fieldOffset := 4, defaultString := "", defaultInt32 := 7,
    defaultInt64 := 0, defaultUInt32 := 0, defaultUInt64 := 0,
    defaultFloat := .finite 0, defaultDouble := .finite 0, defaultBool := false,
    defaultEnumNumber := 0, subMsgName := "", subMsgSameFile := true }

/-- An `int32` field with the zero default. -/
def exZeroDefaultField : ScalarField :=
  { cppType := .cppInt32, fieldOffset := 4, defaultString := "", defaultInt32 := 0,
    defaultInt64 := 0, defaultUInt32 := 0, defaultUInt64 := 0,
    defaultFloat := .finite 0, defaultDouble := .finite 0, defaultBool := false,
    defaultEnumNumber := 0, subMsgName := "", subMsgSameFile := true }

/-- A transaction staging one message whose single link cannot be
resolved against an empty table. -/
def exBadTxn : Symtabtxn :=
  ⟨[{ fqname := "pkg.M", kind := .msg,
      links := [{ typeName := "Missing", expectEnum := false }] }]⟩

/-- A transaction staging two defs, the second referring to the first. -/
def exGoodTxn : Symtabtxn :=
  ⟨[{ fqname := "pkg.N", kind := .msg, links := [] },
    { fqname := "pkg.M", kind := .msg,
      links := [{ typeName := "N", expectEnum := false }] }]⟩

end Upbc

/-! ## Theorems -/

namespace Upbc

/-! ### Bit-layout helpers -/

theorem shiftLeft_or_distrib (x y k : Nat) : (x ||| y) <<< k = x <<< k ||| y <<< k := by
  apply Nat.eq_of_testBit_eq
  intro i
  simp only [Nat.testBit_shiftLeft, Nat.testBit_or]
  cases Decidable.em (k ≤ i) <;> simp [*]

theorem pow_mul_or (k x y : Nat) : 2 ^ k * x ||| 2 ^ k * y = 2 ^ k * (x ||| y) := by
  have e : ∀ z : Nat, 2 ^ k * z = z <<< k := fun z => by rw [Nat.shiftLeft_eq]; ring
  rw [e, e, e, ← shiftLeft_or_distrib]

/-- Or-ing a `w`-bit value into an all-ones `w`-bit field is absorbed. -/
theorem or_ones {x w : Nat} (h : x < 2 ^ w) : x ||| (2 ^ w - 1) = 2 ^ w - 1 := by
  apply Nat.eq_of_testBit_eq
  intro i
  simp only [Nat.testBit_or, Nat.testBit_two_pow_sub_one]
  by_cases hi : i < w
  · simp [hi]
  · have hx : x.testBit i = false :=
      Nat.testBit_lt_two_pow (lt_of_lt_of_le h (Nat.pow_le_pow_right (by norm_num) (by omega)))
    simp [hi, hx]

/-- Inserting a `w`-bit value at bit position `k` into a word whose bits
`[k, k + w)` are clear is an addition. -/
theorem or_insert {lo hi v k w : Nat} (hlo : lo < 2 ^ k) (hv : v < 2 ^ w) :
    (lo + 2 ^ (k + w) * hi) ||| v <<< k = lo + 2 ^ k * v + 2 ^ (k + w) * hi := by
  have e1 : lo + 2 ^ (k + w) * hi = 2 ^ k * (2 ^ w * hi) + lo := by
    rw [pow_add]; ring
  have e2 : v <<< k = 2 ^ k * v := by rw [Nat.shiftLeft_eq]; ring
  rw [e1, Nat.mul_add_lt_is_or hlo, e2, Nat.or_comm _ lo, Nat.or_assoc, pow_mul_or,
    ← Nat.mul_add_lt_is_or hv, Nat.or_comm lo, ← Nat.mul_add_lt_is_or hlo]
  ring

/-- The packed data word of `TryFillTableEntry` in additive form: tag in
bits 0–15, sub-message index in bits 16–23, presence byte in bits 24–31,
oneof-case offset in bits 32–47, offset in bits 48–63. -/
theorem data_word_eq {off tag p c s : Nat} (htag : tag < 2 ^ 16) (hp : p < 2 ^ 8)
    (hc : c < 2 ^ 16) (hs : s < 2 ^ 8) :
    ((off <<< 48 ||| tag) ||| p <<< 24 ||| c <<< 32) ||| s <<< 16
      = tag + 2 ^ 16 * s + 2 ^ 24 * p + 2 ^ 32 * c + 2 ^ 48 * off := by
  have htag24 : tag < 2 ^ 24 := lt_of_lt_of_le htag (by norm_num)
  have htag48 : tag < 2 ^ 48 := lt_of_lt_of_le htag (by norm_num)
  have hp24 : p < 2 ^ 24 := lt_of_lt_of_le hp (by norm_num)
  have h1 : off <<< 48 ||| tag = tag + 2 ^ (24 + 24) * off := by
    rw [Nat.shiftLeft_eq, show off * 2 ^ 48 = 2 ^ 48 * off by ring,
      ← Nat.mul_add_lt_is_or htag48 off, Nat.add_comm]
  rw [h1, or_insert htag24 hp24]
  have h2 : tag + 2 ^ 24 * p + 2 ^ (24 + 24) * off
      = (tag + 2 ^ 24 * p) + 2 ^ (32 + 16) * off := by norm_num
  have hlo32 : tag + 2 ^ 24 * p < 2 ^ 32 := by
    have := htag; have := hp; omega
  rw [h2, or_insert hlo32 hc]
  have h3 : tag + 2 ^ 24 * p + 2 ^ 32 * c + 2 ^ (32 + 16) * off
      = tag + 2 ^ (16 + 8) * (p + 2 ^ 8 * c + 2 ^ 24 * off) := by
    rw [pow_add, pow_add]; ring
  rw [h3, or_insert htag hs]
  rw [pow_add]; ring

/-- The packed data word of a oneof member whose field number is 128 or
more: the `int` shift `field->number() << 24` sign-extends on the
conversion to `uint64_t`, filling bits 32–63 with ones and absorbing
both the oneof-case offset and the storage offset. -/
theorem data_word_big {off tag n c s : Nat} (htag : tag < 2 ^ 16) (hn : n < 2 ^ 8)
    (hoff : off < 2 ^ 16) (hc : c < 2 ^ 16) (hs : s < 2 ^ 8) :
    ((off <<< 48 ||| tag) ||| (2 ^ 24 * n + (2 ^ 64 - 2 ^ 32)) ||| c <<< 32) ||| s <<< 16
      = tag + 2 ^ 16 * s + 2 ^ 24 * n + (2 ^ 64 - 2 ^ 32) := by
  have e1 : (2 : Nat) ^ 64 - 2 ^ 32 = 2 ^ 32 * (2 ^ 32 - 1) := by norm_num
  have hoff48 : off <<< 48 = 2 ^ 32 * (2 ^ 16 * off) := by
    rw [Nat.shiftLeft_eq, show (2 : Nat) ^ 48 = 2 ^ 32 * 2 ^ 16 from by norm_num]; ring
  have hc32 : c <<< 32 = 2 ^ 32 * c := by rw [Nat.shiftLeft_eq]; ring
  have hs16 : s <<< 16 = 2 ^ 16 * s := by rw [Nat.shiftLeft_eq]; ring
  have hnlt : 2 ^ 24 * n < 2 ^ 32 := by omega
  have hv : 2 ^ 24 * n + (2 ^ 64 - 2 ^ 32) = 2 ^ 32 * (2 ^ 32 - 1) ||| 2 ^ 24 * n := by
    rw [← Nat.mul_add_lt_is_or hnlt (2 ^ 32 - 1), e1]; ring
  have habs1 : 2 ^ 32 * (2 ^ 16 * off) ||| 2 ^ 32 * (2 ^ 32 - 1) = 2 ^ 32 * (2 ^ 32 - 1) := by
    rw [pow_mul_or, or_ones (show 2 ^ 16 * off < 2 ^ 32 by omega)]
  have habs2 : 2 ^ 32 * c ||| 2 ^ 32 * (2 ^ 32 - 1) = 2 ^ 32 * (2 ^ 32 - 1) := by
    rw [pow_mul_or, or_ones (show c < 2 ^ 32 by omega)]
  have hst : 2 ^ 16 * s ||| tag = 2 ^ 16 * s + tag := (Nat.mul_add_lt_is_or htag s).symm
  have hlt24 : 2 ^ 16 * s + tag < 2 ^ 24 := by omega
  have hnst : 2 ^ 24 * n ||| (2 ^ 16 * s + tag) = 2 ^ 24 * n + (2 ^ 16 * s + tag) :=
    (Nat.mul_add_lt_is_or hlt24 n).symm
  have hlt32 : 2 ^ 24 * n + (2 ^ 16 * s + tag) < 2 ^ 32 := by omega
  have hfin : 2 ^ 32 * (2 ^ 32 - 1) ||| (2 ^ 24 * n + (2 ^ 16 * s + tag))
      = 2 ^ 32 * (2 ^ 32 - 1) + (2 ^ 24 * n + (2 ^ 16 * s + tag)) :=
    (Nat.mul_add_lt_is_or hlt32 (2 ^ 32 - 1)).symm
  calc ((off <<< 48 ||| tag) ||| (2 ^ 24 * n + (2 ^ 64 - 2 ^ 32)) ||| c <<< 32) ||| s <<< 16
      = ((2 ^ 32 * (2 ^ 16 * off) ||| tag) ||| (2 ^ 32 * (2 ^ 32 - 1) ||| 2 ^ 24 * n)
          ||| 2 ^ 32 * c) ||| 2 ^ 16 * s := by rw [hoff48, hv, hc32, hs16]
    _ = (tag ||| 2 ^ 24 * n ||| 2 ^ 16 * s) ||| (2 ^ 32 * c ||| 2 ^ 32 * (2 ^ 32 - 1))
          ||| 2 ^ 32 * (2 ^ 16 * off) := by ac_rfl
    _ = (tag ||| 2 ^ 24 * n ||| 2 ^ 16 * s) ||| 2 ^ 32 * (2 ^ 32 - 1)
          ||| 2 ^ 32 * (2 ^ 16 * off) := by rw [habs2]
    _ = (tag ||| 2 ^ 24 * n ||| 2 ^ 16 * s)
          ||| (2 ^ 32 * (2 ^ 16 * off) ||| 2 ^ 32 * (2 ^ 32 - 1)) := by ac_rfl
    _ = (tag ||| 2 ^ 24 * n ||| 2 ^ 16 * s) ||| 2 ^ 32 * (2 ^ 32 - 1) := by rw [habs1]
    _ = 2 ^ 32 * (2 ^ 32 - 1) ||| (2 ^ 24 * n ||| (2 ^ 16 * s ||| tag)) := by ac_rfl
    _ = tag + 2 ^ 16 * s + 2 ^ 24 * n + (2 ^ 64 - 2 ^ 32) := by
        rw [hst, hnst, hfin, e1]; ring

theorem data_word_big3 {off tag n c : Nat} (htag : tag < 2 ^ 16) (hn : n < 2 ^ 8)
    (hoff : off < 2 ^ 16) (hc : c < 2 ^ 16) :
    (off <<< 48 ||| tag) ||| (2 ^ 24 * n + (2 ^ 64 - 2 ^ 32)) ||| c <<< 32
      = tag + 2 ^ 24 * n + (2 ^ 64 - 2 ^ 32) := by
  have h := data_word_big htag hn hoff hc (show (0 : Nat) < 2 ^ 8 by norm_num)
  simpa using h

/-- Extraction of the five bit fields from the additive form. -/
theorem extract_fields {tag sub pres caseoff off d : Nat}
    (htag : tag < 2 ^ 16) (hsub : sub < 2 ^ 8) (hpres : pres < 2 ^ 8)
    (hcase : caseoff < 2 ^ 16)
    (hd : d = tag + 2 ^ 16 * sub + 2 ^ 24 * pres + 2 ^ 32 * caseoff + 2 ^ 48 * off) :
    d &&& 0xffff = tag ∧ (d >>> 16) &&& 0xff = sub ∧ (d >>> 24) &&& 0xff = pres ∧
      (d >>> 32) &&& 0xffff = caseoff ∧ d >>> 48 = off := by
  subst hd
  rw [show (0xffff : Nat) = 2 ^ 16 - 1 by norm_num, show (0xff : Nat) = 2 ^ 8 - 1 by norm_num,
    Nat.and_pow_two_sub_one_eq_mod, Nat.and_pow_two_sub_one_eq_mod,
    Nat.and_pow_two_sub_one_eq_mod, Nat.and_pow_two_sub_one_eq_mod,
    Nat.shiftRight_eq_div_pow, Nat.shiftRight_eq_div_pow, Nat.shiftRight_eq_div_pow,
    Nat.shiftRight_eq_div_pow]
  have e8 : (2 : Nat) ^ 8 = 256 := by norm_num
  have e16 : (2 : Nat) ^ 16 = 65536 := by norm_num
  have e24 : (2 : Nat) ^ 24 = 16777216 := by norm_num
  have e32 : (2 : Nat) ^ 32 = 4294967296 := by norm_num
  have e48 : (2 : Nat) ^ 48 = 281474976710656 := by norm_num
  rw [e8, e16, e24, e32, e48] at *
  refine ⟨?_, ?_, ?_, ?_, ?_⟩ <;> omega

/-- Extraction from the additive form of the overflowed-oneof data
word: bits 32–47 and bits 48–63 both read all ones. -/
theorem extract_fields_big {tag sub pres d : Nat}
    (htag : tag < 2 ^ 16) (hsub : sub < 2 ^ 8) (hpres : pres < 2 ^ 8)
    (hd : d = tag + 2 ^ 16 * sub + 2 ^ 24 * pres + (2 ^ 64 - 2 ^ 32)) :
    d &&& 0xffff = tag ∧ (d >>> 16) &&& 0xff = sub ∧ (d >>> 24) &&& 0xff = pres ∧
      (d >>> 32) &&& 0xffff = 0xffff ∧ d >>> 48 = 0xffff := by
  subst hd
  rw [show (0xffff : Nat) = 2 ^ 16 - 1 by norm_num, show (0xff : Nat) = 2 ^ 8 - 1 by norm_num,
    Nat.and_pow_two_sub_one_eq_mod, Nat.and_pow_two_sub_one_eq_mod,
    Nat.and_pow_two_sub_one_eq_mod, Nat.and_pow_two_sub_one_eq_mod,
    Nat.shiftRight_eq_div_pow, Nat.shiftRight_eq_div_pow, Nat.shiftRight_eq_div_pow,
    Nat.shiftRight_eq_div_pow]
  refine ⟨?_, ?_, ?_, ?_, ?_⟩ <;> omega

/-! ### The table-growing loop -/

theorem growLenAux_ge (fuel n slot : Nat) : n ≤ growLenAux fuel n slot := by
  induction fuel generalizing n with
  | zero => simp [growLenAux]
  | succ fuel ih =>
    simp only [growLenAux]
    split
    · exact Nat.le_refl n
    · exact Nat.le_trans (by omega) (ih (max 1 (n * 2)))

theorem growLen_ge (n slot : Nat) : n ≤ growLen n slot := growLenAux_ge _ n slot

theorem growLen_of_lt {n slot : Nat} (h : slot < n) : growLen n slot = n := by
  simp [growLen, growLenAux, h]

theorem growLenAux_lt {fuel n slot : Nat} (hn : 1 ≤ n) (h : slot < 2 ^ fuel * n) :
    slot < growLenAux fuel n slot := by
  induction fuel generalizing n with
  | zero => simpa [growLenAux] using by simpa using h
  | succ fuel ih =>
    simp only [growLenAux]
    split
    · assumption
    · refine ih (by omega) ?_
      have hmax : max 1 (n * 2) = n * 2 := by omega
      rw [hmax]
      calc slot < 2 ^ (fuel + 1) * n := h
        _ = 2 ^ fuel * (n * 2) := by ring

/-- The fuel `slot + 1` always lets the doubling loop terminate with
`slot` inside the table, as the C `while` loop does. -/
theorem lt_growLen (n slot : Nat) : slot < growLen n slot := by
  unfold growLen
  rcases Nat.eq_zero_or_pos n with hn | hn
  · subst hn
    rw [show growLenAux (slot + 1) 0 slot = growLenAux slot 1 slot by
      simp [growLenAux]]
    exact growLenAux_lt (Nat.le_refl 1) (by simpa using Nat.lt_two_pow slot)
  · exact growLenAux_lt hn (by
      calc slot < 2 ^ slot := Nat.lt_two_pow slot
        _ ≤ 2 ^ (slot + 1) * n := by
          calc (2 : Nat) ^ slot ≤ 2 ^ (slot + 1) :=
                Nat.pow_le_pow_right (by norm_num) (by omega)
            _ = 2 ^ (slot + 1) * 1 := by ring
            _ ≤ 2 ^ (slot + 1) * n := Nat.mul_le_mul_left _ hn)

theorem growLenAux_pow2_min {fuel n slot : Nat} (k : Nat) (hn : n = 2 ^ k) :
    growLenAux fuel n slot = n ∨
      (∃ k', growLenAux fuel n slot = 2 ^ k' ∧ growLenAux fuel n slot ≤ 2 * slot + 1) := by
  induction fuel generalizing n k with
  | zero => exact Or.inl rfl
  | succ fuel ih =>
    simp only [growLenAux]
    split
    · exact Or.inl rfl
    · rename_i hslot
      have hpos : 1 ≤ n := by subst hn; exact Nat.one_le_two_pow
      have hmax : max 1 (n * 2) = n * 2 := by omega
      rw [hmax]
      have hn2 : n * 2 = 2 ^ (k + 1) := by rw [hn]; ring
      rcases ih (k + 1) hn2 with h | h
      · right
        refine ⟨k + 1, by rw [h, hn2], ?_⟩
        rw [h]
        omega
      · exact Or.inr h

/-- Growing a power-of-two-sized (or empty) table either leaves it alone
or yields a power of two at most `2 * slot + 1` (i.e. the least power of
two exceeding `slot`, given that growth happened). -/
theorem growLen_pow2_min {n slot : Nat} (h : n = 0 ∨ ∃ k, n = 2 ^ k) :
    growLen n slot = n ∨
      (∃ k', growLen n slot = 2 ^ k' ∧ growLen n slot ≤ 2 * slot + 1) := by
  rcases h with h | ⟨k, hk⟩
  · subst h
    unfold growLen
    rw [show growLenAux (slot + 1) 0 slot = growLenAux slot 1 slot by
      simp [growLenAux]]
    rcases @growLenAux_pow2_min slot 1 slot 0 (by norm_num) with h | h
    · right
      exact ⟨0, by simpa using h, by rw [h]; omega⟩
    · exact Or.inr h
  · exact growLenAux_pow2_min k hk

/-! ### List access helpers -/

theorem getD_replicate_self {α : Type} (n m : Nat) (a : α) :
    (List.replicate n a).getD m a = a := by
  induction n generalizing m with
  | zero => simp
  | succ n ih => cases m <;> simp [List.replicate_succ, ih]

theorem getD_set_eq {α : Type} (t : List α) (i s : Nat) (e d : α) :
    (t.set i e).getD s d = if i = s ∧ i < t.length then e else t.getD s d := by
  induction t generalizing i s with
  | nil => simp [List.set]
  | cons a t ih =>
    cases i with
    | zero => cases s <;> simp [List.set]
    | succ i =>
      cases s with
      | zero => simp [List.set]
      | succ s =>
        simp only [List.set, List.getD_cons_succ, ih i s, List.length_cons]
        by_cases h : i = s ∧ i < t.length
        · rw [if_pos h, if_pos ⟨by omega, by omega⟩]
        · rw [if_neg h, if_neg (by omega)]

theorem getD_grow (t : List TableEntry) (slot s : Nat) :
    (growTable t slot).getD s genericEntry =
      if s < t.length then t.getD s genericEntry else genericEntry := by
  unfold growTable
  by_cases h : s < t.length
  · rw [if_pos h, List.getD_append _ _ _ _ h]
  · rw [if_neg h, List.getD_append_right _ _ _ _ (by omega)]
    exact getD_replicate_self _ _ _

theorem length_grow (t : List TableEntry) (slot : Nat) :
    (growTable t slot).length = growLen t.length slot := by
  unfold growTable
  rw [List.length_append, List.length_replicate]
  have := growLen_ge t.length slot
  omega

/-! ### Dispatch keys are never the generic fallback symbol -/

theorem upbp_ne_generic (a b c d e : String) :
    "upb_p" ++ a ++ b ++ c ++ d ++ e ≠ genericName := by
  intro h
  have hu : (("upb_p" ++ a ++ b ++ c ++ d ++ e).data).head? = some 'u' := rfl
  rw [h] at hu
  exact absurd hu (by decide)

theorem upbp_ne_generic7 (a b c d e f g : String) :
    "upb_p" ++ a ++ b ++ c ++ d ++ e ++ f ++ g ≠ genericName := by
  intro h
  have hu : (("upb_p" ++ a ++ b ++ c ++ d ++ e ++ f ++ g).data).head? = some 'u' := rfl
  rw [h] at hu
  exact absurd hu (by decide)

theorem finishEntry_key_ne {f : FastField} {ty card : String} {tag data : Nat}
    {key : String} {d : Nat}
    (h : finishEntry f ty card tag data = .filled key d) : key ≠ genericName := by
  unfold finishEntry at h
  split at h
  · split at h
    · exact absurd h (by simp)
    · simp only [FillResult.filled.injEq] at h
      exact h.1 ▸ upbp_ne_generic7 _ _ _ _ _ _ _
  · simp only [FillResult.filled.injEq] at h
    exact h.1 ▸ upbp_ne_generic _ _ _ _ _

theorem tryFill_key_ne {f : FastField} {key : String} {d : Nat}
    (h : TryFillTableEntry f = .filled key d) : key ≠ genericName := by
  unfold TryFillTableEntry at h
  split at h
  · dsimp only at h
    repeat' split at h
    all_goals first
      | exact finishEntry_key_ne h
      | simp at h
  · simp at h

/-! ### Characterization of one loop step -/

theorem fastStep_none (f : FastField) : fastStep none f = none := rfl

theorem foldl_fastStep_none (l : List FastField) : l.foldl fastStep none = none := by
  induction l with
  | nil => rfl
  | cons f l ih => rw [List.foldl_cons, fastStep_none, ih]

theorem fastStep_slot_none {t : List TableEntry} {f : FastField}
    (h : GetTableSlot f = none) : fastStep (some t) f = some t := by
  simp [fastStep, h]

theorem fastStep_notRep {t : List TableEntry} {f : FastField} {s : Nat}
    (hs : GetTableSlot f = some s) (h : TryFillTableEntry f = .notRepresentable) :
    fastStep (some t) f = some t := by
  simp [fastStep, hs, h]

theorem fastStep_assert {t : List TableEntry} {f : FastField} {s : Nat}
    (hs : GetTableSlot f = some s) (h : TryFillTableEntry f = .assertFail) :
    fastStep (some t) f = none := by
  simp [fastStep, hs, h]

theorem fastStep_filled {t : List TableEntry} {f : FastField} {s : Nat} {k : String} {d : Nat}
    (hs : GetTableSlot f = some s) (h : TryFillTableEntry f = .filled k d) :
    fastStep (some t) f =
      some (if ((growTable t s).getD s genericEntry).1 ≠ genericName then growTable t s
        else (growTable t s).set s (k, d)) := by
  simp only [fastStep, hs, h]
  split <;> simp_all

theorem placeOf_none_of_slot {f : FastField} (h : GetTableSlot f = none) :
    placeOf f = none := by
  simp [placeOf, h]

theorem placeOf_none_of_notRep {f : FastField}
    (h : TryFillTableEntry f = .notRepresentable) : placeOf f = none := by
  unfold placeOf
  rw [h]
  split <;> simp_all

theorem placeOf_none_of_assert {f : FastField}
    (h : TryFillTableEntry f = .assertFail) : placeOf f = none := by
  unfold placeOf
  rw [h]
  split <;> simp_all

theorem placeOf_some {f : FastField} {s : Nat} {k : String} {d : Nat}
    (hs : GetTableSlot f = some s) (h : TryFillTableEntry f = .filled k d) :
    placeOf f = some (s, (k, d)) := by
  simp [placeOf, hs, h]

theorem placeOf_inv {f : FastField} {s : Nat} {e : TableEntry}
    (h : placeOf f = some (s, e)) :
    GetTableSlot f = some s ∧ TryFillTableEntry f = .filled e.1 e.2 := by
  unfold placeOf at h
  split at h
  · rename_i s' key data hs hf
    simp only [Option.some.injEq, Prod.mk.injEq] at h
    rcases h with ⟨rfl, rfl⟩
    exact ⟨hs, hf⟩
  · simp at h

theorem slotResult_cons_none {f : FastField} {l : List FastField} {s : Nat}
    (h : placeOf f = none) : slotResult (f :: l) s = slotResult l s := by
  simp [slotResult, h]

theorem slotResult_cons_some {f : FastField} {l : List FastField} {s s₀ : Nat}
    {e : TableEntry} (h : placeOf f = some (s₀, e)) :
    slotResult (f :: l) s = if s₀ = s then e else slotResult l s := by
  simp [slotResult, h]


/-! ### The loop invariant of `FastDecodeTable` -/

/-- Main invariant of the fast-table construction loop, proved for the
tail `l` of the field list and an arbitrary starting table `t` whose
generic-named entries are exactly the generic entry: the table never
shrinks; a slot that already held a non-generic entry is untouched,
while every other slot ends up as `slotResult l` prescribes (the first
representable field of `l` mapping to it wins, else generic); every
representable field's slot ends up inside the table; and the table
length stays zero or a power of two, growth being bounded by twice a
placed slot. -/
theorem foldl_fastStep_spec (l : List FastField) :
    ∀ t table : List TableEntry,
      (∀ s, s < t.length → (t.getD s genericEntry).1 = genericName →
        t.getD s genericEntry = genericEntry) →
      l.foldl fastStep (some t) = some table →
      t.length ≤ table.length ∧
      (∀ s, s < table.length →
        table.getD s genericEntry =
          if (t.getD s genericEntry).1 = genericName then slotResult l s
          else t.getD s genericEntry) ∧
      (∀ f ∈ l, ∀ s e, placeOf f = some (s, e) → s < table.length) ∧
      ((t.length = 0 ∨ ∃ k, t.length = 2 ^ k) →
        (table.length = 0 ∨ ∃ k, table.length = 2 ^ k) ∧
        (table.length = t.length ∨
          ∃ f ∈ l, ∃ s e, placeOf f = some (s, e) ∧ table.length ≤ 2 * s + 1)) := by
  induction l with
  | nil =>
    intro t table ht h
    rw [List.foldl_nil, Option.some.injEq] at h
    subst h
    refine ⟨Nat.le_refl _, ?_, by simp, fun hp => ⟨hp, Or.inl rfl⟩⟩
    intro s hs
    simp only [slotResult]
    by_cases hg : (t.getD s genericEntry).1 = genericName
    · rw [if_pos hg]
      exact ht s hs hg
    · rw [if_neg hg]
  | cons f l ih =>
    intro t table ht h
    rw [List.foldl_cons] at h
    have skipCase : placeOf f = none → fastStep (some t) f = some t →
        t.length ≤ table.length ∧
        (∀ s, s < table.length →
          table.getD s genericEntry =
            if (t.getD s genericEntry).1 = genericName then slotResult (f :: l) s
            else t.getD s genericEntry) ∧
        (∀ g ∈ f :: l, ∀ s e, placeOf g = some (s, e) → s < table.length) ∧
        ((t.length = 0 ∨ ∃ k, t.length = 2 ^ k) →
          (table.length = 0 ∨ ∃ k, table.length = 2 ^ k) ∧
          (table.length = t.length ∨
            ∃ g ∈ f :: l, ∃ s e, placeOf g = some (s, e) ∧ table.length ≤ 2 * s + 1)) := by
      intro hpl hstep
      rw [hstep] at h
      obtain ⟨h1, h2, h3, h4⟩ := ih t table ht h
      refine ⟨h1, ?_, ?_, ?_⟩
      · intro s hs
        rw [h2 s hs, slotResult_cons_none hpl]
      · intro g hg s e hp
        rcases List.mem_cons.mp hg with rfl | hg
        · rw [hp] at hpl; exact absurd hpl (by simp)
        · exact h3 g hg s e hp
      · intro hpow
        obtain ⟨ha, hb⟩ := h4 hpow
        refine ⟨ha, ?_⟩
        rcases hb with hb | ⟨g, hg, s, e, hp, hbound⟩
        · exact Or.inl hb
        · exact Or.inr ⟨g, List.mem_cons_of_mem f hg, s, e, hp, hbound⟩
    rcases hslot : GetTableSlot f with _ | s₀
    · exact skipCase (placeOf_none_of_slot hslot) (fastStep_slot_none hslot)
    · cases hfill : TryFillTableEntry f with
      | notRepresentable =>
        exact skipCase (placeOf_none_of_notRep hfill) (fastStep_notRep hslot hfill)
      | assertFail =>
        rw [fastStep_assert hslot hfill, foldl_fastStep_none] at h
        exact absurd h (by simp)
      | filled k d =>
        rw [fastStep_filled hslot hfill] at h
        have hpl : placeOf f = some (s₀, (k, d)) := placeOf_some hslot hfill
        have hkg : k ≠ genericName := tryFill_key_ne hfill
        have hglen : (growTable t s₀).length = growLen t.length s₀ := length_grow t s₀
        have hgeD : ∀ s, (growTable t s₀).getD s genericEntry =
            if s < t.length then t.getD s genericEntry else genericEntry :=
          getD_grow t s₀
        have hlen_le : t.length ≤ (growTable t s₀).length := by
          rw [hglen]; exact growLen_ge _ _
        have hslot_lt : s₀ < (growTable t s₀).length := by
          rw [hglen]; exact lt_growLen _ _
        have htg : ∀ s, s < (growTable t s₀).length →
            ((growTable t s₀).getD s genericEntry).1 = genericName →
            (growTable t s₀).getD s genericEntry = genericEntry := by
          intro s hs hname
          rw [hgeD s] at hname ⊢
          by_cases hlt : s < t.length
          · rw [if_pos hlt] at hname ⊢
            exact ht s hlt hname
          · rw [if_neg hlt]
        have hgpow : (t.length = 0 ∨ ∃ k', t.length = 2 ^ k') →
            ((growTable t s₀).length = 0 ∨ ∃ k', (growTable t s₀).length = 2 ^ k') := by
          intro hpow
          rw [hglen]
          rcases @growLen_pow2_min t.length s₀ hpow with heq | ⟨k', hk', _⟩
          · rw [heq]; exact hpow
          · exact Or.inr ⟨k', hk'⟩
        have hgrowmin : (t.length = 0 ∨ ∃ k', t.length = 2 ^ k') →
            ((growTable t s₀).length = t.length ∨ (growTable t s₀).length ≤ 2 * s₀ + 1) := by
          intro hpow
          rw [hglen]
          rcases @growLen_pow2_min t.length s₀ hpow with heq | ⟨_, _, hmin⟩
          · exact Or.inl heq
          · exact Or.inr hmin
        by_cases hocc : ((growTable t s₀).getD s₀ genericEntry).1 ≠ genericName
        · -- a hotter field already filled the slot: the entry is kept
          rw [if_pos hocc] at h
          have hocc' : s₀ < t.length ∧ (t.getD s₀ genericEntry).1 ≠ genericName := by
            by_cases hlt : s₀ < t.length
            · rw [hgeD s₀, if_pos hlt] at hocc
              exact ⟨hlt, hocc⟩
            · rw [hgeD s₀, if_neg hlt] at hocc
              exact absurd rfl hocc
          obtain ⟨h1, h2, h3, h4⟩ := ih (growTable t s₀) table htg h
          refine ⟨Nat.le_trans hlen_le h1, ?_, ?_, ?_⟩
          · intro s hs
            rw [h2 s hs, hgeD s, slotResult_cons_some hpl]
            by_cases hlt : s < t.length
            · rw [if_pos hlt]
              by_cases hseq : s₀ = s
              · subst hseq
                rw [if_neg hocc'.2, if_neg hocc'.2]
              · rw [if_neg hseq]
            · rw [if_neg hlt]
              have hsd : t.getD s genericEntry = genericEntry := List.getD_eq_default _ _ (by omega)
              rw [hsd]
              simp only [genericEntry, if_true]
              by_cases hseq : s₀ = s
              · exact absurd (hseq ▸ hocc'.1) hlt
              · rw [if_neg hseq]
          · intro q hq s e hp
            rcases List.mem_cons.mp hq with rfl | hq
            · obtain ⟨hqs, _⟩ := placeOf_inv hp
              rw [hslot, Option.some.injEq] at hqs
              subst hqs
              exact Nat.lt_of_lt_of_le hslot_lt h1
            · exact h3 q hq s e hp
          · intro hpow
            obtain ⟨ha, hb⟩ := h4 (hgpow hpow)
            refine ⟨ha, ?_⟩
            rcases hb with hb | ⟨q, hq, s, e, hp, hbound⟩
            · rcases hgrowmin hpow with heq | hmin
              · exact Or.inl (hb.trans heq)
              · exact Or.inr ⟨f, List.mem_cons_self f l, s₀, (k, d), hpl, hb ▸ hmin⟩
            · exact Or.inr ⟨q, List.mem_cons_of_mem f hq, s, e, hp, hbound⟩
        · -- the slot is free: the entry is placed
          rw [if_neg hocc] at h
          rw [not_not] at hocc
          have hset : ∀ s, ((growTable t s₀).set s₀ (k, d)).getD s genericEntry =
              if s₀ = s ∧ s₀ < (growTable t s₀).length then (k, d)
              else (growTable t s₀).getD s genericEntry :=
            fun s => getD_set_eq (growTable t s₀) s₀ s (k, d) genericEntry
          have hslen : ((growTable t s₀).set s₀ (k, d)).length = (growTable t s₀).length :=
            List.length_set _ _ _
          have htg' : ∀ s, s < ((growTable t s₀).set s₀ (k, d)).length →
              (((growTable t s₀).set s₀ (k, d)).getD s genericEntry).1 = genericName →
              ((growTable t s₀).set s₀ (k, d)).getD s genericEntry = genericEntry := by
            intro s hs hname
            rw [hset s] at hname ⊢
            by_cases hc : s₀ = s ∧ s₀ < (growTable t s₀).length
            · rw [if_pos hc] at hname
              exact absurd hname hkg
            · rw [if_neg hc] at hname ⊢
              rw [hslen] at hs
              exact htg s hs hname
          obtain ⟨h1, h2, h3, h4⟩ := ih ((growTable t s₀).set s₀ (k, d)) table htg' h
          rw [hslen] at h1
          refine ⟨Nat.le_trans hlen_le h1, ?_, ?_, ?_⟩
          · intro s hs
            by_cases hseq : s₀ = s
            · subst hseq
              have hsetat : ((growTable t s₀).set s₀ (k, d)).getD s₀ genericEntry = (k, d) := by
                rw [hset s₀,
                  if_pos (show s₀ = s₀ ∧ s₀ < (growTable t s₀).length from ⟨rfl, hslot_lt⟩)]
              rw [h2 s₀ hs, hsetat,
                if_neg (show ¬((k, d) : TableEntry).1 = genericName from hkg),
                slotResult_cons_some hpl]
              have hcond : (t.getD s₀ genericEntry).1 = genericName := by
                by_cases hlt : s₀ < t.length
                · rw [hgeD s₀, if_pos hlt] at hocc
                  exact hocc
                · rw [List.getD_eq_default _ _ (by omega)]
                  rfl
              rw [if_pos hcond, if_pos rfl]
            · have hsetne : ((growTable t s₀).set s₀ (k, d)).getD s genericEntry =
                  (growTable t s₀).getD s genericEntry := by
                rw [hset s, if_neg (fun hc => hseq hc.1)]
              rw [h2 s hs, hsetne, hgeD s, slotResult_cons_some hpl]
              by_cases hlt : s < t.length
              · rw [if_pos hlt]
                by_cases hg : (t.getD s genericEntry).1 = genericName
                · rw [if_pos hg, if_pos hg, if_neg hseq]
                · rw [if_neg hg, if_neg hg]
              · rw [if_neg hlt, List.getD_eq_default _ _ (by omega)]
                simp only [genericEntry, if_true]
                rw [if_neg hseq]
          · intro q hq s e hp
            rcases List.mem_cons.mp hq with rfl | hq
            · obtain ⟨hqs, _⟩ := placeOf_inv hp
              rw [hslot, Option.some.injEq] at hqs
              subst hqs
              exact Nat.lt_of_lt_of_le (hslen ▸ hslot_lt) h1
            · exact h3 q hq s e hp
          · intro hpow
            obtain ⟨ha, hb⟩ := h4 (by rw [hslen]; exact hgpow hpow)
            rw [hslen] at hb
            refine ⟨ha, ?_⟩
            rcases hb with hb | ⟨q, hq, s, e, hp, hbound⟩
            · rcases hgrowmin hpow with heq | hmin
              · exact Or.inl (hb.trans heq)
              · exact Or.inr ⟨f, List.mem_cons_self f l, s₀, (k, d), hpl, hb ▸ hmin⟩
            · exact Or.inr ⟨q, List.mem_cons_of_mem f hq, s, e, hp, hbound⟩

/-! ### Consequences for `FastDecodeTable` -/

/-- Specialization of the loop invariant to the empty starting table. -/
theorem FastDecodeTable_spec {fields : List FastField} {table : List TableEntry}
    (h : FastDecodeTable fields = some table) :
    (∀ s, s < table.length →
      table.getD s genericEntry = slotResult (FieldHotnessOrder fields) s) ∧
    (∀ f ∈ FieldHotnessOrder fields, ∀ s e, placeOf f = some (s, e) → s < table.length) ∧
    (table.length = 0 ∨ ∃ k, table.length = 2 ^ k) ∧
    (table.length = 0 ∨
      ∃ f ∈ FieldHotnessOrder fields, ∃ s e, placeOf f = some (s, e) ∧
        table.length ≤ 2 * s + 1) := by
  obtain ⟨_, h2, h3, h4⟩ :=
    foldl_fastStep_spec (FieldHotnessOrder fields) [] table (by simp) h
  obtain ⟨ha, hb⟩ := h4 (Or.inl rfl)
  refine ⟨?_, h3, ha, ?_⟩
  · intro s hs
    have := h2 s hs
    simpa using this
  · rcases hb with hb | hb
    · exact Or.inl (by simpa using hb)
    · exact Or.inr hb

theorem placeOf_slot_eq {f : FastField} {s : Nat} {e : TableEntry}
    (h : placeOf f = some (s, e)) :
    GetEncodedTag f ≤ 0x7fff ∧ s = (GetEncodedTag f &&& 0xf8) >>> 3 := by
  obtain ⟨hs, _⟩ := placeOf_inv h
  unfold GetTableSlot at hs
  dsimp only at hs
  split at hs
  · exact absurd hs (by simp)
  · rename_i hle
    rw [Option.some.injEq] at hs
    exact ⟨by omega, hs.symm⟩

theorem slot_le_31 (tag : Nat) : (tag &&& 0xf8) >>> 3 ≤ 31 := by
  have h1 : tag &&& 0xf8 ≤ 0xf8 := Nat.and_le_right
  rw [Nat.shiftRight_eq_div_pow]
  omega

theorem FastDecodeTable_length_le {fields : List FastField} {table : List TableEntry}
    (h : FastDecodeTable fields = some table) : table.length ≤ 32 := by
  obtain ⟨_, _, hpow, hmin⟩ := FastDecodeTable_spec h
  rcases hmin with h0 | ⟨f, _, s, e, hp, hb⟩
  · omega
  · obtain ⟨_, hslot⟩ := placeOf_slot_eq hp
    have hs31 : s ≤ 31 := hslot ▸ slot_le_31 _
    rcases hpow with h0 | ⟨k, hk⟩
    · omega
    · have hk6 : k < 6 := by
        by_contra hge
        have : (2 : Nat) ^ 6 ≤ 2 ^ k := Nat.pow_le_pow_right (by norm_num) (by omega)
        omega
      have : (2 : Nat) ^ k ≤ 2 ^ 5 := Nat.pow_le_pow_right (by norm_num) (by omega)
      omega

theorem slotResult_eq_generic {l : List FastField} {s : Nat}
    (h : ∀ f ∈ l, ∀ e, placeOf f ≠ some (s, e)) : slotResult l s = genericEntry := by
  induction l with
  | nil => rfl
  | cons f l ih =>
    rcases hp : placeOf f with _ | ⟨s', e⟩
    · rw [slotResult_cons_none hp]
      exact ih (fun g hg e => h g (List.mem_cons_of_mem f hg) e)
    · rw [slotResult_cons_some hp]
      rcases Decidable.em (s' = s) with rfl | hne
      · exact absurd hp (h f (List.mem_cons_self f l) e)
      · rw [if_neg hne]
        exact ih (fun g hg e => h g (List.mem_cons_of_mem f hg) e)

/-- C1: In the fast-decode table builder fields are considered in hotness
order (required fields first, then ascending field number); each
representable field is placed at slot index `(encoded_tag & 0xf8) >> 3`,
and if that slot was already taken by an earlier (hotter) field the later
field is skipped: every slot of the finished table holds the entry of the
first field in hotness order that maps to it (`slotResult`), the generic
entry if there is none. -/
theorem fastDecodeTable_hotness_first_wins (fields : List FastField)
    (table : List TableEntry) (h : FastDecodeTable fields = some table) :
    List.Sorted hotnessLE (FieldHotnessOrder fields) ∧
    (FieldHotnessOrder fields).Perm fields ∧
    (∀ f s e, placeOf f = some (s, e) →
      GetEncodedTag f ≤ 0x7fff ∧ s = (GetEncodedTag f &&& 0xf8) >>> 3) ∧
    (∀ s, s < table.length →
      table.getD s genericEntry = slotResult (FieldHotnessOrder fields) s) :=
  ⟨List.sorted_insertionSort hotnessLE fields,
    List.perm_insertionSort hotnessLE fields,
    fun _ _ _ hp => placeOf_slot_eq hp,
    (FastDecodeTable_spec h).1⟩

/-- Witness for C1: on the two colliding fields with numbers 33 and 17
(both tags map to slot 17), the table keeps the entry of the hotter
field 17 even though field 33 comes first in the input. -/
theorem fastDecodeTable_hotness_first_wins_witness :
    ((FastDecodeTable [exCollidingInt32, exInt32Num17]).getD []).getD 17 genericEntry
      = slotResult (FieldHotnessOrder [exCollidingInt32, exInt32Num17]) 17 :=
  (fastDecodeTable_hotness_first_wins [exCollidingInt32, exInt32Num17]
    ((FastDecodeTable [exCollidingInt32, exInt32Num17]).getD []) (by decide)).2.2.2
    17 (by decide)

/-- C5: the fast-table mask written into the emitted mini-table is
`(len - 1) << 3` (with no `uint8_t` truncation, since the table never
exceeds 32 slots) whenever the table has more than one entry, and `0xff`
("no fast table") when it has exactly one; `WriteMessage` writes
`maskOfTable` of the built table when fasttable generation is enabled. -/
theorem writeMessage_mask_eq (fields : List FastField) (table : List TableEntry)
    (h : FastDecodeTable fields = some table) :
    writeMessageTableMask fields true = some (maskOfTable table) ∧
    (1 < table.length → maskOfTable table = (table.length - 1) <<< 3) ∧
    (table.length = 1 → maskOfTable table = 0xff) := by
  have hle := FastDecodeTable_length_le h
  refine ⟨?_, ?_, ?_⟩
  · unfold writeMessageTableMask
    rw [if_pos rfl, h, Option.map_some']
  · intro hlen
    unfold maskOfTable
    rw [if_pos hlen]
    rw [Nat.shiftLeft_eq]
    have : (table.length - 1) * 2 ^ 3 < 256 := by
      have : (2 : Nat) ^ 3 = 8 := by norm_num
      omega
    rw [Nat.mod_eq_of_lt this]
  · intro hlen
    unfold maskOfTable
    rw [if_neg (by omega)]

/-- Witness for C5: the singleton field with number 17 produces a
32-entry table, whose mask is `(32 - 1) << 3 = 0xf8`. -/
theorem writeMessage_mask_eq_witness :
    writeMessageTableMask [exInt32Num17] true =
      some (maskOfTable ((FastDecodeTable [exInt32Num17]).getD [])) ∧
    maskOfTable ((FastDecodeTable [exInt32Num17]).getD []) = 0xf8 :=
  ⟨(writeMessage_mask_eq [exInt32Num17] ((FastDecodeTable [exInt32Num17]).getD [])
      (by decide)).1,
    by
      rw [(writeMessage_mask_eq [exInt32Num17] ((FastDecodeTable [exInt32Num17]).getD [])
        (by decide)).2.1 (by decide)]
      decide⟩

/-- C6 fails as stated on a message with no representable fields: the
table built for an empty field list is empty, and an empty table's
length 0 is not a power of two (the smallest power of two containing the
empty set of assigned slots would be 1). -/
theorem fastDecodeTable_empty_counterexample :
    FastDecodeTable [] = some [] ∧
      ¬∃ k : Nat, (FastDecodeTable []).elim 0 List.length = 2 ^ k := by
  refine ⟨by decide, ?_⟩
  rintro ⟨k, hk⟩
  rw [show (FastDecodeTable []).elim 0 List.length = 0 from by decide] at hk
  exact absurd hk.symm (Nat.pos_iff_ne_zero.mp (Nat.pos_pow_of_pos k (by norm_num))).elim

/-- C6 (amended): when at least one field is placed, the fast-decode
table's length is the smallest power of two large enough to contain
every assigned slot index (it is a power of two, contains every assigned
slot, and is at most `2 * s + 1` for some assigned slot `s`); when no
field is representable the table is empty; and every slot no field was
assigned to holds the generic fallback entry
`("_upb_FastDecoder_DecodeGeneric", 0)`. -/
theorem fastDecodeTable_size_pow2_minimal (fields : List FastField)
    (table : List TableEntry) (h : FastDecodeTable fields = some table) :
    (∀ f ∈ FieldHotnessOrder fields, ∀ s e, placeOf f = some (s, e) → s < table.length) ∧
    ((∃ f ∈ FieldHotnessOrder fields, ∃ s e, placeOf f = some (s, e)) →
      (∃ k, table.length = 2 ^ k) ∧
      ∃ f ∈ FieldHotnessOrder fields, ∃ s e, placeOf f = some (s, e) ∧
        table.length ≤ 2 * s + 1) ∧
    ((∀ f ∈ FieldHotnessOrder fields, ∀ s e, placeOf f ≠ some (s, e)) → table = []) ∧
    (∀ s, s < table.length →
      (∀ f ∈ FieldHotnessOrder fields, ∀ e, placeOf f ≠ some (s, e)) →
      table.getD s genericEntry = genericEntry) := by
  obtain ⟨hB, hC, hpow, hmin⟩ := FastDecodeTable_spec h
  refine ⟨hC, ?_, ?_, ?_⟩
  · rintro ⟨f, hf, sv, e, hp⟩
    have hlt := hC f hf sv e hp
    rcases hpow with h0 | hk
    · omega
    · refine ⟨hk, ?_⟩
      rcases hmin with h0 | hm
      · omega
      · exact hm
  · intro hnone
    rcases hmin with h0 | ⟨f, hf, sv, e, hp, _⟩
    · exact List.length_eq_zero.mp h0
    · exact absurd hp (hnone f hf sv e)
  · intro s hs hnone
    rw [hB s hs]
    exact slotResult_eq_generic hnone

/-- Witness for C6 (amended): a single required field with number 1 maps
to slot 1; the table has the minimal power-of-two size 2 and its slot 0
holds the generic entry. -/
theorem fastDecodeTable_size_pow2_minimal_witness :
    ((∃ f ∈ FieldHotnessOrder [exReqInt32], ∃ s e, placeOf f = some (s, e)) →
      (∃ k, ((FastDecodeTable [exReqInt32]).getD []).length = 2 ^ k) ∧
      ∃ f ∈ FieldHotnessOrder [exReqInt32], ∃ s e, placeOf f = some (s, e) ∧
        ((FastDecodeTable [exReqInt32]).getD []).length ≤ 2 * s + 1) ∧
    ((FastDecodeTable [exReqInt32]).getD []).getD 0 genericEntry = genericEntry :=
  ⟨(fastDecodeTable_size_pow2_minimal [exReqInt32]
      ((FastDecodeTable [exReqInt32]).getD []) (by decide)).2.1,
    (fastDecodeTable_size_pow2_minimal [exReqInt32]
      ((FastDecodeTable [exReqInt32]).getD []) (by decide)).2.2.2 0 (by decide)
      (by
        intro f hf e hp
        rw [show FieldHotnessOrder [exReqInt32] = [exReqInt32] from by decide] at hf
        rw [List.mem_singleton] at hf
        subst hf
        rw [show placeOf exReqInt32 = some (1, ("upb_psv4_1bt", 2251799830462472))
          from by decide] at hp
        simp at hp)⟩

/-! ### The packed data word (C2) -/

theorem data_word_eq3 {off tag p c : Nat} (htag : tag < 2 ^ 16) (hp : p < 2 ^ 8)
    (hc : c < 2 ^ 16) :
    (off <<< 48 ||| tag) ||| p <<< 24 ||| c <<< 32
      = tag + 2 ^ 24 * p + 2 ^ 32 * c + 2 ^ 48 * off := by
  have h := @data_word_eq off tag p c 0 htag hp hc (by norm_num)
  simpa using h

theorem data_word_eq_noc {off tag p sub : Nat} (htag : tag < 2 ^ 16) (hp : p < 2 ^ 8)
    (hsub : sub < 2 ^ 8) :
    ((off <<< 48 ||| tag) ||| p <<< 24) ||| sub <<< 16
      = tag + 2 ^ 16 * sub + 2 ^ 24 * p + 2 ^ 48 * off := by
  have h := @data_word_eq off tag p 0 sub htag hp (by norm_num) hsub
  simpa using h

theorem data_word_eq2 {off tag p : Nat} (htag : tag < 2 ^ 16) (hp : p < 2 ^ 8) :
    (off <<< 48 ||| tag) ||| p <<< 24 = tag + 2 ^ 24 * p + 2 ^ 48 * off := by
  have h := @data_word_eq off tag p 0 0 htag hp (by norm_num) (by norm_num)
  simpa using h

theorem uint64OfInt_of_pos {p : Int} (h0 : 0 < p) (h16 : p.natAbs < 2 ^ 15) :
    uint64OfInt p = p.toNat := by
  unfold uint64OfInt
  have h15 : (2 : Int) ^ 15 = 32768 := by norm_num
  have h64 : (2 : Int) ^ 64 = 18446744073709551616 := by norm_num
  rw [Int.emod_eq_of_lt (by omega) (by omega)]

/-- For a oneof field number below 128 the `int` shift stays
non-negative and the conversion chain is the identity. -/
theorem int32_shift24_small {n : Nat} (h : n < 128) :
    uint64OfInt (int32OfNat (n <<< 24)) = n <<< 24 := by
  unfold int32OfNat uint64OfInt
  rw [Nat.shiftLeft_eq]
  split <;> omega

/-- For a oneof field number in `[128, 256)` the `int` shift sets bit
31, so its value sign-extends on conversion to `uint64_t`: the result
carries ones in bits 32–63. -/
theorem int32_shift24_big {n : Nat} (h1 : 128 ≤ n) (h2 : n < 256) :
    uint64OfInt (int32OfNat (n <<< 24)) = 2 ^ 24 * n + (2 ^ 64 - 2 ^ 32) := by
  unfold int32OfNat uint64OfInt
  rw [Nat.shiftLeft_eq]
  split <;> omega

theorem finishEntry_data {f : FastField} {ty card : String} {tag dd : Nat}
    {key : String} {data : Nat} (h : finishEntry f ty card tag dd = .filled key data) :
    (f.cppTypeMessage = true ∧ f.submsgIndex < 2 ^ 8 ∧ data = dd ||| f.submsgIndex <<< 16) ∨
      (f.cppTypeMessage = false ∧ data = dd) := by
  unfold finishEntry at h
  by_cases hm : f.cppTypeMessage = true
  · rw [if_pos hm] at h
    by_cases hsub : 255 < f.submsgIndex
    · rw [if_pos hsub] at h
      exact absurd h (by simp)
    · rw [if_neg hsub] at h
      dsimp only at h
      rw [FillResult.filled.injEq] at h
      exact Or.inl ⟨hm, by omega, h.2.symm⟩
  · rw [if_neg hm] at h
    rw [FillResult.filled.injEq] at h
    exact Or.inr ⟨Bool.not_eq_true _ ▸ hm, h.2.symm⟩

/-- Decomposition of a successfully filled entry's data word into its
bit fields, in additive form, for fields whose `int` shift does not
overflow: non-oneof fields and oneof members with number below 128. -/
theorem tryFill_filled_decomp {f : FastField} {key : String} {data : Nat}
    (htag : GetEncodedTag f ≤ 0x7fff)
    (hsm : f.inOneof = false ∨ f.number < 128)
    (h : TryFillTableEntry f = .filled key data) :
    ∃ pres caseoff : Nat,
      pres < 2 ^ 8 ∧ caseoff < 2 ^ 16 ∧
      data = GetEncodedTag f
        + 2 ^ 16 * (if f.cppTypeMessage then f.submsgIndex else 0)
        + 2 ^ 24 * pres + 2 ^ 32 * caseoff + 2 ^ 48 * f.mtOffset ∧
      (f.inOneof = true → pres = f.number ∧ caseoff = oneofCaseOffset f) ∧
      (f.inOneof = false → caseoff = 0 ∧
        (f.presence ≠ 0 → pres = uint64OfInt f.presence) ∧
        (f.presence = 0 → pres = 63)) ∧
      (f.cppTypeMessage = true → f.submsgIndex < 2 ^ 8) := by
  have htag16 : GetEncodedTag f < 2 ^ 16 := by omega
  unfold TryFillTableEntry at h
  split at h
  case h_2 => exact absurd h (by simp)
  case h_1 ty card hty hcard =>
    dsimp only at h
    by_cases h1 : f.inOneof = true
    · rw [if_pos h1] at h
      by_cases h2 : 0xffff < oneofCaseOffset f
      · rw [if_pos h2] at h
        exact absurd h (by simp)
      · rw [if_neg h2] at h
        by_cases h3 : 256 ≤ f.number
        · rw [if_pos h3] at h
          exact absurd h (by simp)
        · rw [if_neg h3] at h
          have hn128 : f.number < 128 := by
            rcases hsm with hc | hn
            · exact absurd h1 (by simp [hc])
            · exact hn
          rw [int32_shift24_small hn128] at h
          have hnum : f.number < 2 ^ 8 := by omega
          have hcase : oneofCaseOffset f < 2 ^ 16 := by omega
          rcases finishEntry_data h with ⟨hm, hsub, hd⟩ | ⟨hm, hd⟩
          · refine ⟨f.number, oneofCaseOffset f, hnum, hcase, ?_, fun _ => ⟨rfl, rfl⟩,
              fun hc => absurd h1 (by simp [hc]), fun _ => hsub⟩
            rw [hd, data_word_eq htag16 hnum hcase hsub, if_pos hm]
          · refine ⟨f.number, oneofCaseOffset f, hnum, hcase, ?_, fun _ => ⟨rfl, rfl⟩,
              fun hc => absurd h1 (by simp [hc]), fun hc => absurd hc (by simp [hm])⟩
            rw [hd, data_word_eq3 htag16 hnum hcase, if_neg (by simp [hm])]
            ring
    · rw [if_neg h1] at h
      have h1' : f.inOneof = false := by simpa using h1
      by_cases h2 : f.presence ≠ 0
      · rw [if_pos h2] at h
        by_cases h3 : 31 < uint64OfInt f.presence
        · rw [if_pos h3] at h
          exact absurd h (by simp)
        · rw [if_neg h3] at h
          have hp8 : uint64OfInt f.presence < 2 ^ 8 := by omega
          rcases finishEntry_data h with ⟨hm, hsub, hd⟩ | ⟨hm, hd⟩
          · refine ⟨uint64OfInt f.presence, 0, hp8, by norm_num, ?_,
              fun hc => absurd hc (by simp [h1']), fun _ => ⟨rfl, fun _ => rfl, fun hc => absurd hc h2⟩,
              fun _ => hsub⟩
            rw [hd, data_word_eq_noc htag16 hp8 hsub, if_pos hm]
            ring
          · refine ⟨uint64OfInt f.presence, 0, hp8, by norm_num, ?_,
              fun hc => absurd hc (by simp [h1']), fun _ => ⟨rfl, fun _ => rfl, fun hc => absurd hc h2⟩,
              fun hc => absurd hc (by simp [hm])⟩
            rw [hd, data_word_eq2 htag16 hp8, if_neg (by simp [hm])]
            ring
      · rw [if_neg h2] at h
        rw [not_not] at h2
        rcases finishEntry_data h with ⟨hm, hsub, hd⟩ | ⟨hm, hd⟩
        · refine ⟨63, 0, by norm_num, by norm_num, ?_,
            fun hc => absurd hc (by simp [h1']), fun _ => ⟨rfl, fun hc => absurd h2 hc, fun _ => rfl⟩,
            fun _ => hsub⟩
          rw [hd, data_word_eq_noc htag16 (by norm_num) hsub, if_pos hm]
          ring
        · refine ⟨63, 0, by norm_num, by norm_num, ?_,
            fun hc => absurd hc (by simp [h1']), fun _ => ⟨rfl, fun hc => absurd h2 hc, fun _ => rfl⟩,
            fun hc => absurd hc (by simp [hm])⟩
          rw [hd, data_word_eq2 htag16 (by norm_num), if_neg (by simp [hm])]
          ring

/-- Decomposition of a successfully filled oneof entry's data word when
the field number is 128 or more: the sign-extended `int` shift merges
the case offset and the storage offset into an all-ones upper half. -/
theorem tryFill_filled_decomp_big {f : FastField} {key : String} {data : Nat}
    (htag : GetEncodedTag f ≤ 0x7fff) (hoff : f.mtOffset < 2 ^ 16)
    (h1 : f.inOneof = true) (hbig : 128 ≤ f.number)
    (h : TryFillTableEntry f = .filled key data) :
    f.number < 2 ^ 8 ∧
    data = GetEncodedTag f
      + 2 ^ 16 * (if f.cppTypeMessage then f.submsgIndex else 0)
      + 2 ^ 24 * f.number + (2 ^ 64 - 2 ^ 32) ∧
    (f.cppTypeMessage = true → f.submsgIndex < 2 ^ 8) := by
  have htag16 : GetEncodedTag f < 2 ^ 16 := by omega
  unfold TryFillTableEntry at h
  split at h
  case h_2 => exact absurd h (by simp)
  case h_1 ty card hty hcard =>
    dsimp only at h
    rw [if_pos h1] at h
    by_cases h2 : 0xffff < oneofCaseOffset f
    · rw [if_pos h2] at h
      exact absurd h (by simp)
    · rw [if_neg h2] at h
      by_cases h3 : 256 ≤ f.number
      · rw [if_pos h3] at h
        exact absurd h (by simp)
      · rw [if_neg h3] at h
        have hnum : f.number < 2 ^ 8 := by omega
        have hcase : oneofCaseOffset f < 2 ^ 16 := by omega
        rw [int32_shift24_big hbig (by omega)] at h
        rcases finishEntry_data h with ⟨hm, hsub, hd⟩ | ⟨hm, hd⟩
        · refine ⟨hnum, ?_, fun _ => hsub⟩
          rw [hd, data_word_big htag16 hnum hoff hcase hsub, if_pos hm]
        · refine ⟨hnum, ?_, fun hc => absurd hc (by simp [hm])⟩
          rw [hd, data_word_big3 htag16 hnum hoff hcase, if_neg (by simp [hm])]
          ring

/-- C2, corrected: the packed data word of every entry placed into the
fast table has the encoded expected tag in bits 0-15, the sub-message
index in bits 16-23 (zero for non-message fields) and the presence byte
in bits 24-31 (the field number for a oneof member, the has-bit index
for a singular field with a has-bit).  The claimed upper-half layout
holds for non-oneof fields (bits 32-47 zero, storage offset in bits
48-63) and for oneof members with field number below 128; for a oneof
member with field number 128-255 the `int` shift
`field->number() << 24` sign-extends on conversion to `uint64_t` and
fills bits 32-63 with ones, so bits 32-47 and 48-63 both read `0xffff`
instead of the case offset and the storage offset.  `hpres16` is the
`int16_t` range of the presence value, `hoff` the `uint16_t` range of
the mini-table offset, and `htag` the two-byte tag bound enforced by
`GetTableSlot` before any entry is placed. -/
theorem tryFillTableEntry_data_layout (f : FastField) (key : String) (data : Nat)
    (hpres16 : f.presence.natAbs < 2 ^ 15) (htag : GetEncodedTag f ≤ 0x7fff)
    (hoff : f.mtOffset < 2 ^ 16)
    (h : TryFillTableEntry f = .filled key data) :
    data &&& 0xffff = GetEncodedTag f ∧
    (data >>> 16) &&& 0xff = (if f.cppTypeMessage then f.submsgIndex else 0) ∧
    (f.inOneof = true → (data >>> 24) &&& 0xff = f.number) ∧
    (f.inOneof = true → f.number < 128 →
      (data >>> 32) &&& 0xffff = oneofCaseOffset f ∧ data >>> 48 = f.mtOffset) ∧
    (f.inOneof = true → 128 ≤ f.number →
      (data >>> 32) &&& 0xffff = 0xffff ∧ data >>> 48 = 0xffff) ∧
    (f.inOneof = false → 0 < f.presence → (data >>> 24) &&& 0xff = f.presence.toNat) ∧
    (f.inOneof = false → (data >>> 32) &&& 0xffff = 0 ∧ data >>> 48 = f.mtOffset) := by
  have htag16 : GetEncodedTag f < 2 ^ 16 := by omega
  by_cases hbig : f.inOneof = true ∧ 128 ≤ f.number
  · obtain ⟨h1, hb⟩ := hbig
    obtain ⟨hn8, hdata, hsubb⟩ := tryFill_filled_decomp_big htag hoff h1 hb h
    have hsub8 : (if f.cppTypeMessage then f.submsgIndex else 0) < 2 ^ 8 := by
      by_cases hm : f.cppTypeMessage = true
      · rw [if_pos hm]; exact hsubb hm
      · rw [if_neg hm]; norm_num
    obtain ⟨e1, e2, e3, e4, e5⟩ := extract_fields_big htag16 hsub8 hn8 hdata
    exact ⟨e1, e2, fun _ => e3, fun _ hlt => absurd hb (by omega),
      fun _ _ => ⟨e4, e5⟩, fun hc => absurd h1 (by simp [hc]),
      fun hc => absurd h1 (by simp [hc])⟩
  · have hsm : f.inOneof = false ∨ f.number < 128 := by
      by_cases h1 : f.inOneof = true
      · rcases Nat.lt_or_ge f.number 128 with hlt | hge
        · exact Or.inr hlt
        · exact absurd ⟨h1, hge⟩ hbig
      · exact Or.inl (by simpa using h1)
    obtain ⟨pres, caseoff, hp8, hc16, hdata, hone, hnone, hsubb⟩ :=
      tryFill_filled_decomp htag hsm h
    have hsub8 : (if f.cppTypeMessage then f.submsgIndex else 0) < 2 ^ 8 := by
      by_cases hm : f.cppTypeMessage = true
      · rw [if_pos hm]; exact hsubb hm
      · rw [if_neg hm]; norm_num
    obtain ⟨e1, e2, e3, e4, e5⟩ := extract_fields htag16 hsub8 hp8 hc16 hdata
    refine ⟨e1, e2, ?_, ?_, ?_, ?_, ?_⟩
    · intro h1
      exact (hone h1).1 ▸ e3
    · intro h1 _
      exact ⟨(hone h1).2 ▸ e4, e5⟩
    · intro h1 hge
      exact absurd ⟨h1, hge⟩ hbig
    · intro h1 hpos
      obtain ⟨_, hpn, _⟩ := hnone h1
      rw [e3, hpn (by omega), uint64OfInt_of_pos hpos hpres16]
    · intro h1
      obtain ⟨hco, _, _⟩ := hnone h1
      exact ⟨by rw [e4, hco], e5⟩

/-- C2 fails as stated at a reachable input: the oneof `int32` member
with field number 200, case offset 12 and storage offset 20 is placed
into the fast table (slot 24), but the sign-extended `int` shift
`200 << 24` fills bits 32-63 of its data word with ones, so bits 32-47
read `0xffff` instead of the case offset 12, and bits 48-63 read
`0xffff` instead of the offset 20. -/
theorem tryFillTableEntry_data_layout_counterexample :
    TryFillTableEntry exOneofNum200 = .filled "upb_pov4_2bt" 18446744072770030784 ∧
    ((FastDecodeTable [exOneofNum200]).getD []).getD 24 genericEntry
      = ("upb_pov4_2bt", 18446744072770030784) ∧
    exOneofNum200.inOneof = true ∧
    oneofCaseOffset exOneofNum200 = 12 ∧ exOneofNum200.mtOffset = 20 ∧
    (18446744072770030784 >>> 32) &&& 0xffff = 0xffff ∧
    ¬ (18446744072770030784 >>> 32) &&& 0xffff = oneofCaseOffset exOneofNum200 ∧
    18446744072770030784 >>> 48 = 0xffff ∧
    ¬ 18446744072770030784 >>> 48 = exOneofNum200.mtOffset := by
  refine ⟨by decide, by decide, by decide, by decide, by decide, by decide, by decide,
    by decide, by decide⟩

/-- Witness for C2 (corrected): the entry built for the oneof `int32`
member with field number 200 carries the tag in its low 16 bits and
all-ones in bits 32-63. -/
theorem tryFillTableEntry_data_layout_witness :
    18446744072770030784 &&& 0xffff = GetEncodedTag exOneofNum200 ∧
      (18446744072770030784 >>> 32) &&& 0xffff = 0xffff ∧
      18446744072770030784 >>> 48 = 0xffff :=
  ⟨(tryFillTableEntry_data_layout exOneofNum200 "upb_pov4_2bt" 18446744072770030784
      (by decide) (by decide) (by decide) (by decide)).1,
    (tryFillTableEntry_data_layout exOneofNum200 "upb_pov4_2bt" 18446744072770030784
      (by decide) (by decide) (by decide) (by decide)).2.2.2.2.1 (by decide) (by decide)⟩

/-! ### Skip conditions of the fast path (C4) -/

/-- C4 fails as stated: a oneof member with field number 300 (whose
case offset passes the `0xffff` check) does not report a silent failure;
it trips `assert(field->number() < 256)`, modelled as `assertFail`, and
building a fast table over it aborts instead of skipping the field. -/
theorem tryFill_oneof_bignum_asserts :
    TryFillTableEntry exOneofBigNumber = .assertFail ∧
    exOneofBigNumber.inOneof = true ∧
    256 ≤ exOneofBigNumber.number ∧
    oneofCaseOffset exOneofBigNumber ≤ 0xffff ∧
    FastDecodeTable [exOneofBigNumber] = none := by
  refine ⟨by decide, by decide, by decide, by decide, by decide⟩

/-- C4 (amended): enum fields, map fields, fields with has-bit index
≥ 32 (within the `int16_t` presence range) and oneof members whose case
offset exceeds `0xffff` are skipped silently (the builder returns
failure); a oneof member with field number ≥ 256 and a message field
with sub-message index > 255 are never placed into the table, but the
former triggers the oneof branch's assertion (a debug abort) when it
passes the earlier checks, rather than a silent skip. -/
theorem tryFill_skip_conditions (f : FastField) :
    (f.descriptortype = .tEnum → TryFillTableEntry f = .notRepresentable) ∧
    (f.fieldMode = .map → TryFillTableEntry f = .notRepresentable) ∧
    (f.inOneof = false → f.presence.natAbs < 2 ^ 15 → 32 ≤ f.presence →
      TryFillTableEntry f = .notRepresentable) ∧
    (f.inOneof = true → 0xffff < oneofCaseOffset f →
      TryFillTableEntry f = .notRepresentable) ∧
    (f.inOneof = true → 256 ≤ f.number → ∀ k d, TryFillTableEntry f ≠ .filled k d) ∧
    (f.cppTypeMessage = true → 255 < f.submsgIndex →
      ∀ k d, TryFillTableEntry f ≠ .filled k d) := by
  refine ⟨?_, ?_, ?_, ?_, ?_, ?_⟩
  · intro h
    unfold TryFillTableEntry
    rcases hc : cardinalityCode f with _ | card <;> simp [h, typeCode, hc]
  · intro h
    unfold TryFillTableEntry
    rcases hty : typeCode f.descriptortype with _ | ty <;>
      simp [h, cardinalityCode, hty]
  · intro h1 h16 h32
    unfold TryFillTableEntry
    rcases hty : typeCode f.descriptortype with _ | ty
    · rfl
    · rcases hc : cardinalityCode f with _ | card
      · rfl
      · dsimp only
        rw [if_neg (by simp [h1])]
        have hpos : (0 : Int) < f.presence := by omega
        rw [if_pos (by omega), if_pos ?hgt]
        case hgt =>
          rw [uint64OfInt_of_pos hpos h16]
          omega
  · intro h1 hcase
    unfold TryFillTableEntry
    rcases hty : typeCode f.descriptortype with _ | ty
    · rfl
    · rcases hc : cardinalityCode f with _ | card
      · rfl
      · dsimp only
        rw [if_pos h1, if_pos hcase]
  · intro h1 hnum k d
    unfold TryFillTableEntry
    rcases hty : typeCode f.descriptortype with _ | ty
    · simp
    · rcases hc : cardinalityCode f with _ | card
      · simp
      · dsimp only
        rw [if_pos h1]
        by_cases hcase : 0xffff < oneofCaseOffset f
        · rw [if_pos hcase]; simp
        · rw [if_neg hcase, if_pos hnum]; simp
  · intro h1 hsub k d
    unfold TryFillTableEntry
    rcases hty : typeCode f.descriptortype with _ | ty
    · simp
    · rcases hc : cardinalityCode f with _ | card
      · simp
      · dsimp only
        have hfin : ∀ tag dd, finishEntry f ty card tag dd ≠ .filled k d := by
          intro tag dd hcontra
          unfold finishEntry at hcontra
          rw [if_pos h1, if_pos hsub] at hcontra
          exact absurd hcontra (by simp)
        by_cases ho : f.inOneof = true
        · rw [if_pos ho]
          by_cases hcase : 0xffff < oneofCaseOffset f
          · rw [if_pos hcase]; simp
          · rw [if_neg hcase]
            by_cases hnum : 256 ≤ f.number
            · rw [if_pos hnum]; simp
            · rw [if_neg hnum]
              exact hfin _ _
        · rw [if_neg ho]
          by_cases hp : f.presence ≠ 0
          · rw [if_pos hp]
            by_cases hgt : 31 < uint64OfInt f.presence
            · rw [if_pos hgt]; simp
            · rw [if_neg hgt]
              exact hfin _ _
          · rw [if_neg hp]
            exact hfin _ _

/-- Witness for C4 (amended): an enum-typed field (field 1's attributes
with the enum descriptor type) is skipped silently. -/
theorem tryFill_skip_conditions_witness :
    TryFillTableEntry { exReqInt32 with descriptortype := FieldType.tEnum }
      = .notRepresentable :=
  (tryFill_skip_conditions { exReqInt32 with descriptortype := FieldType.tEnum }).1 rfl

/-! ### Dispatch-key format (C7) -/

theorem varintBytesAux_succ (fuel x : Nat) :
    varintBytesAux (fuel + 1) x =
      if x < 0x80 then [x] else (x % 0x80 + 0x80) :: varintBytesAux fuel (x / 0x80) := rfl

theorem varint_small {x : Nat} (h : x < 0x80) : varintBytes x = [x] := by
  unfold varintBytes
  exact (varintBytesAux_succ 9 x).trans (if_pos h)

theorem varint_big {x : Nat} (h : ¬x < 0x80) :
    varintBytes x = (x % 0x80 + 0x80) :: varintBytesAux 9 (x / 0x80) := by
  unfold varintBytes
  exact (varintBytesAux_succ 9 x).trans (if_neg h)

/-- Under the two-byte bound enforced by `GetTableSlot`, the encoded tag
is the unencoded value itself (one varint byte, ≤ `0xff`) or a two-byte
varint whose value exceeds `0xff`. -/
theorem tagLen_spec {u : Nat} (henc : leCombine ((varintBytes u).take 8) ≤ 0x7fff) :
    (u < 0x80 ∧ leCombine ((varintBytes u).take 8) = u ∧ (varintBytes u).length = 1) ∨
    (0x80 ≤ u ∧ 0xff < leCombine ((varintBytes u).take 8) ∧
      (varintBytes u).length = 2) := by
  by_cases h : u < 0x80
  · left
    refine ⟨h, ?_, ?_⟩ <;> simp [varint_small h, leCombine]
  · right
    by_cases h2 : u / 0x80 < 0x80
    · have haux : varintBytesAux 9 (u / 0x80) = [u / 0x80] :=
        (varintBytesAux_succ 8 _).trans (if_pos h2)
      rw [varint_big h, haux]
      have htake : List.take 8 [u % 0x80 + 0x80, u / 0x80] = [u % 0x80 + 0x80, u / 0x80] := rfl
      rw [htake]
      refine ⟨by omega, ?_, by simp⟩
      simp only [leCombine]
      omega
    · exfalso
      have haux : varintBytesAux 9 (u / 0x80) =
          ((u / 0x80) % 0x80 + 0x80) :: varintBytesAux 8 (u / 0x80 / 0x80) :=
        (varintBytesAux_succ 8 _).trans (if_neg h2)
      rw [varint_big h, haux] at henc
      have htake : List.take 8 ((u % 0x80 + 0x80) :: ((u / 0x80) % 0x80 + 0x80) ::
          varintBytesAux 8 (u / 0x80 / 0x80)) = (u % 0x80 + 0x80) ::
          ((u / 0x80) % 0x80 + 0x80) :: List.take 6 (varintBytesAux 8 (u / 0x80 / 0x80)) := rfl
      rw [htake] at henc
      simp only [leCombine] at henc
      omega

theorem typeCode_mem {t : FieldType} {ty : String} (h : typeCode t = some ty) :
    ty ∈ (["b1", "v4", "v8", "f4", "f8", "z4", "z8", "s", "b", "m"] : List String) := by
  cases t <;> simp [typeCode] at h <;> subst h <;> decide

theorem cardinalityCode_mem {f : FastField} {card : String}
    (h : cardinalityCode f = some card) :
    card ∈ (["s", "o", "r", "p"] : List String) := by
  unfold cardinalityCode at h
  revert h
  rcases f.fieldMode with _ | _ | _ <;> intro h
  · simp at h
  · simp only [Option.some.injEq] at h
    subst h
    split <;> decide
  · simp only [Option.some.injEq] at h
    subst h
    split <;> decide

/-- C7 fails as stated for a same-file sub-message whose mini-table size
plus 8 exceeds 256: the size bucket is `max` even though the sub-message
is not cross-file, so no `N ∈ \x7b64, 128, 192, 256\x7d` appears in the key. -/
theorem tryFill_samefile_max_bucket :
    exBigSubMessage.sameFileSubmsg = true ∧
    TryFillTableEntry exBigSubMessage = .filled "upb_psm_1bt_maxmaxb" 6755400498020370 ∧
    "upb_psm_1bt_maxmaxb" ≠ "upb_psm_1bt_max64b" ∧
    "upb_psm_1bt_maxmaxb" ≠ "upb_psm_1bt_max128b" ∧
    "upb_psm_1bt_maxmaxb" ≠ "upb_psm_1bt_max192b" ∧
    "upb_psm_1bt_maxmaxb" ≠ "upb_psm_1bt_max256b" := by
  refine ⟨rfl, by decide, by decide, by decide, by decide, by decide⟩

/-- C7 (amended): every fast-table dispatch key has the form
`upb_p\x7bcardinality\x7d\x7btype\x7d_\x7b1|2\x7dbt[_max\x7bN\x7db]`, with cardinality in
`\x7bs, o, r, p\x7d`, the type code in `\x7bb1, v4, v8, f4, f8, z4, z8, s, b, m\x7d`,
the `1|2` suffix equal to the encoded tag's length in bytes, and, for
sub-message entries, `N` drawn from `\x7b64, 128, 192, 256, max\x7d`: the
ceiling of the sub-message mini-table size plus 8, collapsing to `max`
for cross-file sub-messages and for same-file sub-messages larger than
every bucket. -/
theorem tryFill_key_format (f : FastField) (key : String) (data : Nat)
    (htag : GetEncodedTag f ≤ 0x7fff) (h : TryFillTableEntry f = .filled key data) :
    ∃ card ty, cardinalityCode f = some card ∧ typeCode f.descriptortype = some ty ∧
      card ∈ (["s", "o", "r", "p"] : List String) ∧
      ty ∈ (["b1", "v4", "v8", "f4", "f8", "z4", "z8", "s", "b", "m"] : List String) ∧
      (0xff < GetEncodedTag f ↔ (varintBytes (unencodedTag f)).length = 2) ∧
      (GetEncodedTag f ≤ 0xff ↔ (varintBytes (unencodedTag f)).length = 1) ∧
      (f.cppTypeMessage = false →
        key = "upb_p" ++ card ++ ty ++ "_"
          ++ (if 0xff < GetEncodedTag f then "2" else "1") ++ "bt") ∧
      (f.cppTypeMessage = true →
        ∃ n, n ∈ (["64", "128", "192", "256", "max"] : List String) ∧
          key = "upb_p" ++ card ++ ty ++ "_"
            ++ (if 0xff < GetEncodedTag f then "2" else "1") ++ "bt_max" ++ n ++ "b" ∧
          (f.sameFileSubmsg = false → n = "max") ∧
          (f.sameFileSubmsg = true →
            n = if f.submsgSize + 8 ≤ 64 then "64"
              else if f.submsgSize + 8 ≤ 128 then "128"
              else if f.submsgSize + 8 ≤ 192 then "192"
              else if f.submsgSize + 8 ≤ 256 then "256"
              else "max")) := by
  have htagiff : (0xff < GetEncodedTag f ↔ (varintBytes (unencodedTag f)).length = 2) ∧
      (GetEncodedTag f ≤ 0xff ↔ (varintBytes (unencodedTag f)).length = 1) := by
    have hspec := @tagLen_spec (unencodedTag f) htag
    rcases hspec with ⟨_, henc, hlen⟩ | ⟨_, henc, hlen⟩
    · constructor
      · constructor
        · intro hgt
          rw [show GetEncodedTag f = leCombine ((varintBytes (unencodedTag f)).take 8)
            from rfl] at hgt
          omega
        · intro h2; omega
      · constructor
        · intro _; exact hlen
        · intro _
          rw [show GetEncodedTag f = leCombine ((varintBytes (unencodedTag f)).take 8)
            from rfl]
          omega
    · constructor
      · constructor
        · intro _; exact hlen
        · intro _
          rw [show GetEncodedTag f = leCombine ((varintBytes (unencodedTag f)).take 8)
            from rfl]
          omega
      · constructor
        · intro hle
          rw [show GetEncodedTag f = leCombine ((varintBytes (unencodedTag f)).take 8)
            from rfl] at hle
          omega
        · intro h2; omega
  have hfin : ∀ ty card tag dd, typeCode f.descriptortype = some ty →
      cardinalityCode f = some card →
      finishEntry f ty card tag dd = .filled key data →
      (f.cppTypeMessage = false →
        key = "upb_p" ++ card ++ ty ++ "_" ++ (if 0xff < tag then "2" else "1") ++ "bt") ∧
      (f.cppTypeMessage = true →
        ∃ n, n ∈ (["64", "128", "192", "256", "max"] : List String) ∧
          key = "upb_p" ++ card ++ ty ++ "_" ++ (if 0xff < tag then "2" else "1")
            ++ "bt_max" ++ n ++ "b" ∧
          (f.sameFileSubmsg = false → n = "max") ∧
          (f.sameFileSubmsg = true →
            n = if f.submsgSize + 8 ≤ 64 then "64"
              else if f.submsgSize + 8 ≤ 128 then "128"
              else if f.submsgSize + 8 ≤ 192 then "192"
              else if f.submsgSize + 8 ≤ 256 then "256"
              else "max")) := by
    intro ty card tag dd _ _ hfe
    unfold finishEntry at hfe
    by_cases hm : f.cppTypeMessage = true
    · rw [if_pos hm] at hfe
      by_cases hsub : 255 < f.submsgIndex
      · rw [if_pos hsub] at hfe
        exact absurd hfe (by simp)
      · rw [if_neg hsub] at hfe
        dsimp only at hfe
        rw [FillResult.filled.injEq] at hfe
        refine ⟨fun hc => absurd hm (by simp [hc]), fun _ => ?_⟩
        by_cases hsf : f.sameFileSubmsg = true
        · rw [if_pos hsf] at hfe
          refine ⟨if f.submsgSize + 8 ≤ 64 then "64"
              else if f.submsgSize + 8 ≤ 128 then "128"
              else if f.submsgSize + 8 ≤ 192 then "192"
              else if f.submsgSize + 8 ≤ 256 then "256"
              else "max", by split_ifs <;> decide, ?_, fun hc => absurd hsf (by simp [hc]),
              fun _ => rfl⟩
          rw [← hfe.1]
        · rw [if_neg hsf] at hfe
          have hbig : ¬(2 ^ 64 - 1 : Nat) ≤ 64 := by norm_num
          have hbig2 : ¬(2 ^ 64 - 1 : Nat) ≤ 128 := by norm_num
          have hbig3 : ¬(2 ^ 64 - 1 : Nat) ≤ 192 := by norm_num
          have hbig4 : ¬(2 ^ 64 - 1 : Nat) ≤ 256 := by norm_num
          rw [if_neg hbig, if_neg hbig2, if_neg hbig3, if_neg hbig4] at hfe
          refine ⟨"max", by decide, ?_, fun _ => rfl,
            fun hc => absurd hc (by simpa using hsf)⟩
          rw [← hfe.1]
    · rw [if_neg hm] at hfe
      rw [FillResult.filled.injEq] at hfe
      refine ⟨fun _ => ?_, fun hc => absurd hc hm⟩
      rw [← hfe.1]
  unfold TryFillTableEntry at h
  split at h
  case h_2 => exact absurd h (by simp)
  case h_1 ty card hty hcard =>
    dsimp only at h
    refine ⟨card, ty, hcard, hty, cardinalityCode_mem hcard, typeCode_mem hty,
      htagiff.1, htagiff.2, ?_⟩
    by_cases h1 : f.inOneof = true
    · rw [if_pos h1] at h
      by_cases h2 : 0xffff < oneofCaseOffset f
      · rw [if_pos h2] at h
        exact absurd h (by simp)
      · rw [if_neg h2] at h
        by_cases h3 : 256 ≤ f.number
        · rw [if_pos h3] at h
          exact absurd h (by simp)
        · rw [if_neg h3] at h
          exact hfin ty card _ _ hty hcard h
    · rw [if_neg h1] at h
      by_cases h2 : f.presence ≠ 0
      · rw [if_pos h2] at h
        by_cases h3 : 31 < uint64OfInt f.presence
        · rw [if_pos h3] at h
          exact absurd h (by simp)
        · rw [if_neg h3] at h
          exact hfin ty card _ _ hty hcard h
      · rw [if_neg h2] at h
        exact hfin ty card _ _ hty hcard h

/-- Witness for C7 (amended): a small same-file sub-message field (size
40) gets the `max64b` bucket and the key `upb_psm_1bt_max64b`. -/
theorem tryFill_key_format_witness :
    ∃ card ty, cardinalityCode exSmallSubMessage = some card ∧
      typeCode exSmallSubMessage.descriptortype = some ty ∧
      card ∈ (["s", "o", "r", "p"] : List String) ∧
      ty ∈ (["b1", "v4", "v8", "f4", "f8", "z4", "z8", "s", "b", "m"] : List String) ∧
      (0xff < GetEncodedTag exSmallSubMessage ↔
        (varintBytes (unencodedTag exSmallSubMessage)).length = 2) ∧
      (GetEncodedTag exSmallSubMessage ≤ 0xff ↔
        (varintBytes (unencodedTag exSmallSubMessage)).length = 1) ∧
      (exSmallSubMessage.cppTypeMessage = false →
        "upb_psm_1bt_max64b" = "upb_p" ++ card ++ ty ++ "_"
          ++ (if 0xff < GetEncodedTag exSmallSubMessage then "2" else "1") ++ "bt") ∧
      (exSmallSubMessage.cppTypeMessage = true →
        ∃ n, n ∈ (["64", "128", "192", "256", "max"] : List String) ∧
          "upb_psm_1bt_max64b" = "upb_p" ++ card ++ ty ++ "_"
            ++ (if 0xff < GetEncodedTag exSmallSubMessage then "2" else "1")
            ++ "bt_max" ++ n ++ "b" ∧
          (exSmallSubMessage.sameFileSubmsg = false → n = "max") ∧
          (exSmallSubMessage.sameFileSubmsg = true →
            n = if exSmallSubMessage.submsgSize + 8 ≤ 64 then "64"
              else if exSmallSubMessage.submsgSize + 8 ≤ 128 then "128"
              else if exSmallSubMessage.submsgSize + 8 ≤ 192 then "192"
              else if exSmallSubMessage.submsgSize + 8 ≤ 256 then "256"
              else "max")) :=
  tryFill_key_format exSmallSubMessage "upb_psm_1bt_max64b" 9007200311771162
    (by decide) (by decide)

/-! ### Generator parameters (C8) -/

theorem generateParamLoop_spec (l : List (String × String)) (acc : Bool) :
    (generateParamLoop l acc = .ok true ↔
      (∀ kv ∈ l, kv.1 = "fasttable") ∧ (acc = true ∨ l ≠ [])) ∧
    (generateParamLoop l acc = .ok false ↔ acc = false ∧ l = []) ∧
    (∀ e, generateParamLoop l acc = .error e →
      ∃ kv ∈ l, kv.1 ≠ "fasttable" ∧ e = "Unknown parameter: " ++ kv.1) := by
  induction l generalizing acc with
  | nil =>
    refine ⟨?_, ?_, ?_⟩
    · simp only [generateParamLoop, Except.ok.injEq]
      constructor
      · intro h
        exact ⟨by simp, Or.inl h⟩
      · rintro ⟨_, h | h⟩
        · exact h
        · exact absurd rfl h
    · simp [generateParamLoop]
    · intro e h
      exact absurd h (by simp [generateParamLoop])
  | cons kv l ih =>
    by_cases hk : kv.1 = "fasttable"
    · have hstep : generateParamLoop (kv :: l) acc = generateParamLoop l true := by
        simp [generateParamLoop, hk]
      refine ⟨?_, ?_, ?_⟩
      · rw [hstep, (ih true).1]
        constructor
        · rintro ⟨hall, _⟩
          exact ⟨fun p hp => by
            rcases List.mem_cons.mp hp with rfl | hp
            · exact hk
            · exact hall p hp, Or.inr (by simp)⟩
        · rintro ⟨hall, _⟩
          exact ⟨fun p hp => hall p (List.mem_cons_of_mem kv hp), Or.inl rfl⟩
      · rw [hstep, (ih true).2.1]
        simp
      · intro e h
        rw [hstep] at h
        obtain ⟨p, hp, hpn, he⟩ := (ih true).2.2 e h
        exact ⟨p, List.mem_cons_of_mem kv hp, hpn, he⟩
    · have hstep : generateParamLoop (kv :: l) acc =
          .error ("Unknown parameter: " ++ kv.1) := by
        simp [generateParamLoop, hk]
      refine ⟨?_, ?_, ?_⟩
      · rw [hstep]
        constructor
        · intro h
          exact absurd h (by simp)
        · rintro ⟨hall, _⟩
          exact absurd (hall kv (List.mem_cons_self kv l)) hk
      · rw [hstep]
        constructor
        · intro h
          exact absurd h (by simp)
        · rintro ⟨_, h⟩
          exact absurd h (by simp)
      · intro e h
        rw [hstep, Except.error.injEq] at h
        exact ⟨kv, List.mem_cons_self kv l, hk, h.symm⟩

/-- C8: the generator's parameter handling recognizes exactly one key,
`fasttable`; the run succeeds with the flag set iff at least one token is
present and every token's key is `fasttable`, succeeds with the flag
clear iff there are no tokens, and any failure is a diagnostic
`Unknown parameter: <key>` naming a token whose key is not `fasttable`. -/
theorem generate_params_spec (p : String) :
    (GenerateParams p = .ok true ↔
      ParseGeneratorParameter p ≠ [] ∧
        ∀ kv ∈ ParseGeneratorParameter p, kv.1 = "fasttable") ∧
    (GenerateParams p = .ok false ↔ ParseGeneratorParameter p = []) ∧
    (∀ e, GenerateParams p = .error e →
      ∃ kv ∈ ParseGeneratorParameter p, kv.1 ≠ "fasttable" ∧
        e = "Unknown parameter: " ++ kv.1) := by
  obtain ⟨h1, h2, h3⟩ := generateParamLoop_spec (ParseGeneratorParameter p) false
  refine ⟨?_, ?_, h3⟩
  · rw [show GenerateParams p = generateParamLoop (ParseGeneratorParameter p) false from rfl,
      h1]
    constructor
    · rintro ⟨hall, h | hne⟩
      · exact absurd h (by simp)
      · exact ⟨hne, hall⟩
    · rintro ⟨hne, hall⟩
      exact ⟨hall, Or.inr hne⟩
  · rw [show GenerateParams p = generateParamLoop (ParseGeneratorParameter p) false from rfl,
      h2]
    simp

/-- Witness for C8: `fasttable` alone enables the flag, and the unknown
key `badkey` produces the matching diagnostic. -/
theorem generate_params_spec_witness :
    GenerateParams "fasttable" = .ok true ∧
    (∃ kv ∈ ParseGeneratorParameter "badkey", kv.1 ≠ "fasttable" ∧
      "Unknown parameter: badkey" = "Unknown parameter: " ++ kv.1) :=
  ⟨(generate_params_spec "fasttable").1.mpr (by decide),
    (generate_params_spec "badkey").2.2 "Unknown parameter: badkey" (by decide)⟩

/-! ### Extension mode (C9) -/

/-- C9: the extension mode written into an emitted mini-table is
`kUpb_ExtMode_NonExtendable` exactly when the message declares no
extension ranges; with at least one range it is
`kUpb_ExtMode_IsMessageSet` when `message_set_wire_format` is set and
`kUpb_ExtMode_Extendable` otherwise. -/
theorem writeMessage_ext_mode (m : ExtRangeMsg) :
    (writeMessageExtMode m = "kUpb_ExtMode_NonExtendable" ↔ m.extensionRangeCount = 0) ∧
    (0 < m.extensionRangeCount →
      writeMessageExtMode m =
        if m.messageSetWireFormat then "kUpb_ExtMode_IsMessageSet"
        else "kUpb_ExtMode_Extendable") := by
  unfold writeMessageExtMode
  by_cases h : m.extensionRangeCount ≠ 0
  · rw [if_pos h]
    refine ⟨⟨fun he => ?_, fun h0 => absurd h0 h⟩, fun _ => rfl⟩
    by_cases hw : m.messageSetWireFormat
    · rw [if_pos hw] at he
      exact absurd he (by decide)
    · rw [if_neg hw] at he
      exact absurd he (by decide)
  · rw [if_neg h]
    exact ⟨⟨fun _ => by omega, fun _ => rfl⟩, fun h0 => absurd (by omega : m.extensionRangeCount ≠ 0) h⟩

/-- Witness for C9: no extension ranges gives `NonExtendable`; one range
with `message_set_wire_format` gives `IsMessageSet`. -/
theorem writeMessage_ext_mode_witness :
    writeMessageExtMode ⟨0, false⟩ = "kUpb_ExtMode_NonExtendable" ∧
    writeMessageExtMode ⟨1, true⟩ =
      (if (true : Bool) then "kUpb_ExtMode_IsMessageSet" else "kUpb_ExtMode_Extendable") :=
  ⟨(writeMessage_ext_mode ⟨0, false⟩).1.mpr rfl,
    (writeMessage_ext_mode ⟨1, true⟩).2 (by decide)⟩

/-! ### Scalar getters (C10) -/

theorem hasNonZeroDefault_iff (f : ScalarField) :
    HasNonZeroDefault f = true ↔ nonZeroDefaultSpec f := by
  unfold HasNonZeroDefault nonZeroDefaultSpec
  cases hc : f.cppType
  · simp
  · dsimp only
    constructor
    · intro h he
      rw [he] at h
      exact absurd h (by decide)
    · intro h
      have hne : f.defaultString.isEmpty = false := by
        rw [Bool.eq_false_iff]
        intro hemp
        exact h ((String.isEmpty_iff _).mp hemp)
      simp [hne]
  · cases hb : f.defaultBool <;> simp
  · cases hf : f.defaultFloat <;> simp [floatValIsZero]
  · cases hd : f.defaultDouble <;> simp [floatValIsZero]
  · simp [bne_iff_ne]
  · simp [bne_iff_ne]
  · simp [bne_iff_ne]
  · simp [bne_iff_ne]
  · simp [bne_iff_ne]

/-- C10: the getter emitted by `GenerateScalarGetters` is the
presence-guarded template (hazzer-conditional read, falling back to the
declared default) exactly when the field's default is non-zero/non-empty
for its type class; for a zero/empty default the emitted getter is the
plain template reading the stored value at the field's offset
unconditionally, with the offset passed as substitution argument `$3`. -/
theorem scalar_getter_guarded_iff (f : ScalarField) (m r : String) :
    ((GenerateScalarGetters f m r).1 = scalarGetterGuardedTmpl ↔ nonZeroDefaultSpec f) ∧
    (nonZeroDefaultSpec f →
      GenerateScalarGetters f m r =
        (scalarGetterGuardedTmpl,
          [CTypeConst f, m, r, toString f.fieldOffset, FieldDefault f])) ∧
    (¬nonZeroDefaultSpec f →
      GenerateScalarGetters f m r =
        (scalarGetterPlainTmpl, [CTypeConst f, m, r, toString f.fieldOffset])) := by
  unfold GenerateScalarGetters
  by_cases h : HasNonZeroDefault f = true
  · have hs := (hasNonZeroDefault_iff f).mp h
    rw [if_pos h]
    exact ⟨⟨fun _ => hs, fun _ => rfl⟩, fun _ => rfl, fun hn => absurd hs hn⟩
  · have hs : ¬nonZeroDefaultSpec f := fun hc => h ((hasNonZeroDefault_iff f).mpr hc)
    rw [if_neg h]
    refine ⟨⟨fun he => ?_, fun hc => absurd hc hs⟩, fun hc => absurd hc hs, fun _ => rfl⟩
    have heq : scalarGetterPlainTmpl = scalarGetterGuardedTmpl := he
    exact absurd heq (by decide)

/-- Witness for C10: an `int32` field with default 7 gets the guarded
getter; the same field with default 0 gets the unconditional read. -/
theorem scalar_getter_guarded_iff_witness :
    GenerateScalarGetters exNonZeroDefaultField "M" "d" =
      (scalarGetterGuardedTmpl,
        [CTypeConst exNonZeroDefaultField, "M", "d",
          toString exNonZeroDefaultField.fieldOffset, FieldDefault exNonZeroDefaultField]) ∧
    GenerateScalarGetters exZeroDefaultField "M" "d" =
      (scalarGetterPlainTmpl,
        [CTypeConst exZeroDefaultField, "M", "d", toString exZeroDefaultField.fieldOffset]) :=
  ⟨(scalar_getter_guarded_iff exNonZeroDefaultField "M" "d").2.1
      (show nonZeroDefaultSpec exNonZeroDefaultField from
        show (7 : Int) ≠ 0 by norm_num),
    (scalar_getter_guarded_iff exZeroDefaultField "M" "d").2.2
      (show ¬nonZeroDefaultSpec exZeroDefaultField from
        show ¬(0 : Int) ≠ 0 by omega)⟩

/-! ### Symbol-table commit (C3) -/

theorem lookup_map_append {defs : List SpecDef} {rest : List (String × SpecDef)}
    (hnodup : (defs.map SpecDef.fqname).Nodup) :
    ∀ d ∈ defs, ((defs.map (fun d => (d.fqname, d))) ++ rest).lookup d.fqname = some d := by
  induction defs with
  | nil => simp
  | cons d0 defs ih =>
    intro d hd
    rw [List.map_cons, List.cons_append, List.lookup_cons]
    rcases List.mem_cons.mp hd with rfl | hd
    · simp
    · have hnd : d.fqname ≠ d0.fqname := by
        rw [List.map_cons, List.nodup_cons] at hnodup
        intro he
        exact hnodup.1 (he ▸ List.mem_map_of_mem SpecDef.fqname hd)
      rw [show (d.fqname == d0.fqname) = false from beq_eq_false_iff_ne.mpr hnd]
      exact ih (by
        rw [List.map_cons, List.nodup_cons] at hnodup
        exact hnodup.2) d hd

/-- C3: if `upb_symtab_commit` fails, the symbol table is unchanged, the
transaction is left intact with its defs (usable for a retry), `false`
is returned and the error is reported through the status — a failure
happens exactly when some staged def has a link that fails to resolve;
on success the transaction is cleared, the status is clean and every
staged def is installed (all-or-nothing). -/
theorem upb_symtab_commit_atomic (s : Symtab) (t : Symtabtxn)
    (hnodup : (t.defs.map SpecDef.fqname).Nodup) :
    ((upb_symtab_commit s t).1 = false →
      (upb_symtab_commit s t).2.1 = s ∧ (upb_symtab_commit s t).2.2.1 = t ∧
      (upb_symtab_commit s t).2.2.2.isSome = true) ∧
    ((upb_symtab_commit s t).1 = false ↔
      ∃ d ∈ t.defs, defErr (commitFind s t) d ≠ none) ∧
    ((upb_symtab_commit s t).1 = true →
      (upb_symtab_commit s t).2.2.1 = ⟨[]⟩ ∧ (upb_symtab_commit s t).2.2.2 = none ∧
      ∀ d ∈ t.defs, (upb_symtab_commit s t).2.1.tab.lookup d.fqname = some d) := by
  unfold upb_symtab_commit
  rcases hfind : t.defs.findSome? (defErr (commitFind s t)) with _ | e
  · refine ⟨fun hc => absurd hc (by simp), ?_, ?_⟩
    · constructor
      · intro hc
        exact absurd hc (by simp)
      · rintro ⟨d, hd, hne⟩
        exact absurd (List.findSome?_eq_none_iff.mp hfind d hd) hne
    · intro _
      exact ⟨rfl, rfl, lookup_map_append hnodup⟩
  · refine ⟨fun _ => ⟨rfl, rfl, rfl⟩, ?_, fun hc => absurd hc (by simp)⟩
    constructor
    · intro _
      obtain ⟨d, hd, hde⟩ := List.exists_of_findSome?_eq_some hfind
      exact ⟨d, hd, by simp [hde]⟩
    · intro _
      rfl

/-- Witness for C3: committing a transaction with an unresolvable link
into an empty table fails and leaves table and transaction untouched;
committing a transaction whose second def refers to the first succeeds
and installs both defs. -/
theorem upb_symtab_commit_atomic_witness :
    ((upb_symtab_commit ⟨[]⟩ exBadTxn).2.1 = (⟨[]⟩ : Symtab) ∧
      (upb_symtab_commit ⟨[]⟩ exBadTxn).2.2.1 = exBadTxn ∧
      (upb_symtab_commit ⟨[]⟩ exBadTxn).2.2.2.isSome = true) ∧
    ((upb_symtab_commit ⟨[]⟩ exGoodTxn).2.2.1 = (⟨[]⟩ : Symtabtxn) ∧
      (upb_symtab_commit ⟨[]⟩ exGoodTxn).2.2.2 = none ∧
      ∀ d ∈ exGoodTxn.defs,
        (upb_symtab_commit ⟨[]⟩ exGoodTxn).2.1.tab.lookup d.fqname = some d) :=
  ⟨(upb_symtab_commit_atomic ⟨[]⟩ exBadTxn (by decide)).1 (by decide),
    (upb_symtab_commit_atomic ⟨[]⟩ exGoodTxn (by decide)).2.2 (by decide)⟩

end Upbc
